import Mathlib

/-! Key normaliser and dual-mode table of `pkg/ux/table.go`, and the allocation table of
`cmd/blockchaincmd/describe.go`.

A shallow embedding of `noColorNoLines`, `toSnakeCase`, `CustomTable` with its
operations and `printAllocations` with its callers, followed by the properties of
the specification that concern them.

Go strings are byte sequences; a string is modelled as the list of its bytes
(`Nat` values, a byte being `< 256`).  The three regular expressions of the file
only name ASCII bytes, and an ASCII byte is always a rune of its own in Go's UTF-8
decoding (also inside malformed input), so matching them bytewise is matching
them runewise.
-/

namespace Ux

/-- A Go string, as the list of its bytes. -/
abbrev Str := List Nat

/-- The bytes of an ASCII literal. -/
def ascii (s : String) : Str := s.toList.map Char.toNat

/-! ## Library functions used by the source -/

/-- The loop of `regexp.ReplaceAllStringFunc` for an expression that never matches the
empty string.  `re t` is the length of the leftmost-first match of the expression
anchored at the start of `t`, if there is one.  The first argument counts the
bytes of the current match that are still to be passed over: the search resumes
where the last match ended. -/
def replaceAllFrom (re : Str → Option Nat) (repl : Str → Str) : Nat → Str → Str
  | _, [] => []
  | k + 1, _ :: cs => replaceAllFrom re repl k cs
  | 0, c :: cs =>
    match re (c :: cs) with
    | some n => repl ((c :: cs).take n) ++ replaceAllFrom re repl (n - 1) cs
    | none => c :: replaceAllFrom re repl 0 cs

/-- Go `regexp.ReplaceAllStringFunc`: every non-overlapping match, leftmost first, is
replaced by `repl` of the matched text. -/
def ReplaceAllStringFunc (re : Str → Option Nat) (src : Str) (repl : Str → Str) : Str :=
  replaceAllFrom re repl 0 src

/-- Go `regexp.ReplaceAllString` with a replacement that holds no `$`. -/
def ReplaceAllString (re : Str → Option Nat) (src : Str) (repl : Str) : Str :=
  replaceAllFrom re (fun _ => repl) 0 src

/-- Go `strings.ReplaceAll(s, old, new)` for a one-byte `old`. -/
def ReplaceAll : Str → Nat → Str → Str
  | [], _, _ => []
  | c :: cs, old, new => (if c = old then new else [c]) ++ ReplaceAll cs old new

/-- Go `strings.Trim(s, cutset)` for an ASCII `cutset`: all leading and trailing bytes
that occur in `cutset` are removed. -/
def Trim (s : Str) (cutset : Str) : Str :=
  ((s.dropWhile (fun b => cutset.contains b)).reverse.dropWhile
    (fun b => cutset.contains b)).reverse

/-- Lower-casing of one ASCII byte. -/
def lowerByte (b : Nat) : Nat := if 65 ≤ b ∧ b ≤ 90 then b + 32 else b

/-- Go `strings.ToLower` on its ASCII path: for a string whose bytes are all below
`0x80` the library lower-cases bytewise, `A`-`Z` becoming `a`-`z`.  In `toSnakeCase`
the argument is always such a string (`toSnakeCase_lower_arg_ascii` below), so the
Unicode path of the library is never taken. -/
def ToLower (s : Str) : Str := s.map lowerByte

/-! ## The regular expressions -/

/-- Byte class `[0-9;]`. -/
def isDigitOrSemicolon (b : Nat) : Bool := (decide (48 ≤ b) && decide (b ≤ 57)) || b == 59

/-- Byte class `[a-zA-Z0-9]`. -/
def isAlphanumeric (b : Nat) : Bool :=
  (decide (97 ≤ b) && decide (b ≤ 122)) || (decide (65 ≤ b) && decide (b ≤ 90)) ||
    (decide (48 ≤ b) && decide (b ≤ 57))

/-- The expression `\x1b\[[0-9;]*m`: ESC, `[`, the longest run of digits and
semicolons, `m`.  No shorter run can be followed by `m`, so greedy matching either
succeeds on the longest run or fails. -/
def reColors : Str → Option Nat
  | 27 :: 91 :: rest =>
    match rest.dropWhile isDigitOrSemicolon with
    | 109 :: _ => some ((rest.takeWhile isDigitOrSemicolon).length + 3)
    | _ => none
  | _ => none

/-- The tail `.*?\)` of `reParentheses`: the number of bytes up to and including the
first `)`, which no newline may precede (`.` does not match a newline). -/
def lazyUntilClose : Str → Option Nat
  | [] => none
  | c :: cs =>
    if c = 41 then some 1
    else if c = 10 then none
    else (lazyUntilClose cs).map (fun n => n + 1)

/-- The expression `\((.*?)\)`. -/
def reParentheses : Str → Option Nat
  | [] => none
  | c :: cs => if c = 40 then (lazyUntilClose cs).map (fun n => n + 1) else none

/-- The expression `[^a-zA-Z0-9]+`: the longest non-empty run of bytes outside the
class. -/
def reNonAlphanumeric (s : Str) : Option Nat :=
  match (s.takeWhile (fun b => !isAlphanumeric b)).length with
  | 0 => none
  | n + 1 => some (n + 1)

/-! ## `noColorNoLines` and `toSnakeCase` -/

/-- Source `noColorNoLines`: removes ANSI escape sequences and converts newlines to
hyphens. -/
def noColorNoLines (input : Str) : Str :=
  let input := ReplaceAllString reColors input []
  let input := ReplaceAll input 10 [45]
  input

/-- The function literal passed to `ReplaceAllStringFunc` in `toSnakeCase`. -/
def parenthesesRepl (m : Str) : Str :=
  let inner := Trim m [40, 41]
  if inner = [] then [95] else [95] ++ inner ++ [95]

/-- Source `toSnakeCase`. -/
def toSnakeCase (input : Str) : Str :=
  let input := noColorNoLines input
  let input := ReplaceAllStringFunc reParentheses input parenthesesRepl
  let input := ReplaceAllString reNonAlphanumeric input [95]
  let input := ToLower (Trim input [95])
  input

/-! ## The table state -/

/-- A Go `map[string]T` as an association list without repeated keys; only lookups
and assignments are made on it. -/
structure GoMap (β : Type) where
  entries : List (Str × β)
  deriving DecidableEq, Repr

/-- The result of `make(map[string]T)`. -/
def GoMap.empty {β : Type} : GoMap β := ⟨[]⟩

/-- Lookup in an association list. -/
def lookupEntries {β : Type} : List (Str × β) → Str → Option β
  | [], _ => none
  | (k', v) :: rest, k => if k' = k then some v else lookupEntries rest k

/-- Assignment in an association list: an existing key is overwritten in place, a
new key is added. -/
def assignEntries {β : Type} : List (Str × β) → Str → β → List (Str × β)
  | [], k, v => [(k, v)]
  | (k', v') :: rest, k, v =>
    if k' = k then (k, v) :: rest else (k', v') :: assignEntries rest k v

/-- Go `v, ok := m[k]`. -/
def GoMap.lookup {β : Type} (m : GoMap β) (k : Str) : Option β := lookupEntries m.entries k

/-- Go `m[k] = v`. -/
def GoMap.assign {β : Type} (m : GoMap β) (k : Str) (v : β) : GoMap β :=
  ⟨assignEntries m.entries k v⟩

/-- What `Data` holds under a key: a string, or a nested `map[string]interface{}`
whose values are strings. -/
inductive Entry where
  | text (s : Str)
  | nested (m : GoMap Str)
  deriving DecidableEq, Repr

/-- What `AllData` holds under a table name: the `Data` of a hierarchical table or
the `ArrayData` of an array table. -/
inductive TableData where
  | hierarchy (d : GoMap Entry)
  | array (a : List (GoMap Str))
  deriving DecidableEq, Repr

/-- A `table.Row`.  The callers pass display strings as cells; on a string
`fmt.Sprint` is the identity and `==` between two cells is string equality. -/
abbrev Row := List Str

/-- The row options of go-pretty that the callers set (`table.RowConfig`). -/
structure RowConfig where
  AutoMerge : Bool
  AutoMergeAlign : Nat
  deriving DecidableEq, Repr

/-- Go-pretty `text.Align`, as far as the sources name its values. -/
inductive Align where
  | Default
  | Left
  | Center
  deriving DecidableEq, Repr

/-- Go-pretty `text.Format`, as far as the sources name its values. -/
inductive Format where
  | Default
  | Upper
  deriving DecidableEq, Repr

/-- The embedded go-pretty `table.Writer`, as the record of what was forwarded to
it: header rows, data rows, the title and the style settings that the sources
make. -/
structure Writer where
  header : List Row
  rows : List (Row × List RowConfig)
  title : Str
  titleAlign : Align
  titleFormat : Format
  separateRows : Bool
  deriving DecidableEq, Repr

/-- Go-pretty `table.NewWriter()`. -/
def NewWriter : Writer :=
  { header := [], rows := [], title := [], titleAlign := Align.Default,
    titleFormat := Format.Default, separateRows := false }

/-- Source `CustomTable`.  `AsJson` is a `*bool`: `none` is the nil pointer,
`some b` a pointer to a flag that currently holds `b`.  `Data` and `AllData` are
maps that were made with `make`. -/
structure CustomTable where
  Writer : Writer
  Name : Str
  Headers : List Str
  Data : GoMap Entry
  ArrayData : List (GoMap Str)
  AllData : GoMap TableData
  headerAdded : Bool
  isArray : Bool
  AsJson : Option Bool
  deriving DecidableEq, Repr

/-- The run-time failure of dereferencing a nil pointer. -/
def nilDereference : String := "invalid memory address or nil pointer dereference"

/-- Source `SetAsJson` (the logger it also mutes is outside the table). -/
def SetAsJson (jt : CustomTable) (AsJson : Option Bool) : CustomTable :=
  { jt with AsJson := AsJson }

/-- Source `AppendHeader`. -/
def AppendHeader (jt : CustomTable) (headers : Row) : Except String CustomTable :=
  if jt.headerAdded then .ok jt
  else
    let jt := { jt with headerAdded := true }
    match jt.AsJson with
    | none => .error nilDereference
    | some true => .ok { jt with Headers := headers.map toSnakeCase }
    | some false => .ok { jt with Writer := { jt.Writer with header := jt.Writer.header ++ [headers] } }

/-- Source `NewCustomTable`; the first argument is the package variable `Table`
(`none` when it is nil), the result is its new value, which is also what the
function returns.  A nil `headers` is `none`. -/
def NewCustomTable (Table : Option CustomTable) (name : Str) (headers : Option Row) :
    Except String CustomTable :=
  let Table : CustomTable :=
    match Table with
    | none =>
      { Writer := NewWriter, Name := name, Headers := [], Data := GoMap.empty,
        ArrayData := [], AllData := GoMap.empty, headerAdded := false,
        isArray := headers.isSome, AsJson := none }
    | some t =>
      { t with Name := name, Data := GoMap.empty, ArrayData := [],
               isArray := headers.isSome, headerAdded := false, Writer := NewWriter }
  match headers with
  | some h => AppendHeader Table h
  | none => .ok Table

/-- The loop of `appendToArray` that fills one record, cell `i` going under header
key `i`. -/
def fillRowData (Headers : List Str) : Row → Nat → GoMap Str → GoMap Str
  | [], _, rowData => rowData
  | value :: rest, i, rowData =>
    match Headers.get? i with
    | some h => fillRowData Headers rest (i + 1) (rowData.assign h (noColorNoLines value))
    | none => fillRowData Headers rest (i + 1) rowData

/-- Source `appendToArray`; a `panic` is an error. -/
def appendToArray (jt : CustomTable) (row : Row) : Except String CustomTable :=
  if jt.Headers.length = 0 then .error "Headers must be set before appending rows."
  else if row.length > jt.Headers.length then .error "Row length exceeds header count."
  else
    let rowData := fillRowData jt.Headers row 0 GoMap.empty
    .ok { jt with ArrayData := jt.ArrayData ++ [rowData] }

/-- Source `appendToHierarchy`. -/
def appendToHierarchy (jt : CustomTable) (row : Row) : CustomTable :=
  match row with
  | [] => jt
  | [_] => jt
  | first :: value :: rest =>
    let key := toSnakeCase first
    match rest with
    | third :: _ =>
      if value = third then
        { jt with Data := jt.Data.assign key (Entry.text (noColorNoLines value)) }
      else
        let data :=
          match jt.Data.lookup key with
          | none => jt.Data.assign key (Entry.nested GoMap.empty)
          | some _ => jt.Data
        match data.lookup key with
        | some (Entry.nested subMap) =>
          let subKey := toSnakeCase value
          let subValue := noColorNoLines third
          { jt with Data := data.assign key (Entry.nested (subMap.assign subKey subValue)) }
        | _ => { jt with Data := data }
    | [] => { jt with Data := jt.Data.assign key (Entry.text (noColorNoLines value)) }

/-- Source `AppendRow`. -/
def AppendRow (jt : CustomTable) (row : Row) (rowConfig : List RowConfig) :
    Except String CustomTable :=
  match jt.AsJson with
  | none => .error nilDereference
  | some true => if jt.isArray then appendToArray jt row else .ok (appendToHierarchy jt row)
  | some false =>
    .ok { jt with Writer := { jt.Writer with rows := jt.Writer.rows ++ [(row, rowConfig)] } }

/-- Source `Render`; `renderText` stands for the go-pretty `Writer.Render`.  What is
stored in `AllData` is the content of `Data` or `ArrayData` at the time of the
call.  In Go the value stored for a hierarchical table is the map `Data` itself, so
that rows appended after `Render` and before the next reset would show in `AllData`
as well; nothing below appends between a `Render` and the next reset. -/
def Render (renderText : Writer → Str) (jt : CustomTable) : Except String (Str × CustomTable) :=
  match jt.AsJson with
  | none => .error nilDereference
  | some true =>
    let name := toSnakeCase jt.Name
    if jt.isArray then
      .ok ([], { jt with AllData := jt.AllData.assign name (TableData.array jt.ArrayData) })
    else
      .ok ([], { jt with AllData := jt.AllData.assign name (TableData.hierarchy jt.Data) })
  | some false => .ok (renderText jt.Writer, jt)

/-- Source `DefaultTable`: `NewCustomTable`, then the title and style settings on the
writer of the table. -/
def DefaultTable (Table : Option CustomTable) (title : Str) (header : Option Row) :
    Except String CustomTable :=
  match NewCustomTable Table title header with
  | .error e => .error e
  | .ok t =>
    .ok { t with Writer := { t.Writer with titleAlign := Align.Center,
                                           titleFormat := Format.Upper,
                                           separateRows := true, title := title } }

/-! ## Definitions used in the statements and proofs -/

/-- The string that reaches `strings.ToLower` in `toSnakeCase`. -/
def lowerArg (s : Str) : Str :=
  Trim (ReplaceAllString reNonAlphanumeric
    (ReplaceAllStringFunc reParentheses (noColorNoLines s) parenthesesRepl) [95]) [95]

/-- The order of steps that the specification warns against: the runs of
non-alphanumeric bytes are collapsed first and the parenthesised substrings are
rewritten after; the other steps are those of `toSnakeCase`. -/
def toSnakeCaseCollapseFirst (input : Str) : Str :=
  let input := noColorNoLines input
  let input := ReplaceAllString reNonAlphanumeric input [95]
  let input := ReplaceAllStringFunc reParentheses input parenthesesRepl
  let input := ToLower (Trim input [95])
  input

/-- A fresh hierarchical table in JSON mode: `NewCustomTable(name, nil)` while `Table`
is nil, then `SetAsJson` with a pointer to a flag that holds true. -/
def freshJsonTable (name : Str) : Except String CustomTable :=
  (NewCustomTable none name none).map (fun t => SetAsJson t (some true))

/-- The table that `freshJsonTable` yields. -/
def emptyJsonTable (name : Str) : CustomTable :=
  { Writer := NewWriter, Name := name, Headers := [], Data := GoMap.empty, ArrayData := [],
    AllData := GoMap.empty, headerAdded := false, isArray := false, AsJson := some true }

/-- The string under sub-key `sub` of the nested mapping under key `k`, if `k` holds a
nested mapping that has it. -/
def subLookup (d : GoMap Entry) (k sub : Str) : Option Str :=
  match d.lookup k with
  | some (Entry.nested m) => m.lookup sub
  | _ => none

/-- The replacement of the runs of non-alphanumeric bytes by one underscore each, as a
two-state scan: the flag tells whether the preceding byte was outside the class. -/
def collapseFrom : Bool → Str → Str
  | _, [] => []
  | b, c :: cs =>
    if isAlphanumeric c then c :: collapseFrom false cs
    else if b then collapseFrom true cs
    else 95 :: collapseFrom true cs

/-- The flag of `collapseFrom` after a scan of the given bytes. -/
def endFlag : Bool → Str → Bool
  | b, [] => b
  | _, c :: cs => endFlag (!isAlphanumeric c) cs

/-- Byte class `[a-z0-9_]`. -/
def isKeyByte (b : Nat) : Bool :=
  (decide (97 ≤ b) && decide (b ≤ 122)) || (decide (48 ≤ b) && decide (b ≤ 57)) || b == 95

/-- A JSON-safe snake_case key: bytes of `[a-z0-9_]` only, no underscore at
either end, no two underscores in a row. -/
def IsSnakeKey (t : Str) : Prop :=
  (∀ b ∈ t, isKeyByte b = true) ∧ t.head? ≠ some 95 ∧ t.getLast? ≠ some 95 ∧
    ¬ ([95, 95] <:+: t)

/-- An ANSI colour sequence: ESC, `[`, any number of digits and semicolons, `m`. -/
def IsColorSeq (q : Str) : Prop :=
  ∃ ds : Str, (∀ d ∈ ds, isDigitOrSemicolon d = true) ∧ q = 27 :: 91 :: (ds ++ [109])

/-- The string has a substring that is an ANSI colour sequence. -/
def HasColorSeq (s : Str) : Prop := ∃ q, IsColorSeq q ∧ q <:+: s

/-- Every ESC byte of the string is the first byte of an ANSI colour sequence. -/
def EscStartsSeq (s : Str) : Prop :=
  ∀ p t, s = p ++ 27 :: t → ∃ q, IsColorSeq q ∧ q <+: 27 :: t

/-- A check of `HasColorSeq` by running the expression at every position. -/
def hasColorSeqCheck (s : Str) : Bool := s.tails.any (fun t => (reColors t).isSome)

/-- A check of `EscStartsSeq` by running the expression at every ESC. -/
def escStartsSeqCheck (s : Str) : Bool :=
  s.tails.all (fun t => t.head? != some 27 || (reColors t).isSome)

/-- Appending rows one after the other with `AppendRow`; a failing append ends the
run. -/
def appendRows : CustomTable → List Row → Except String CustomTable
  | jt, [] => .ok jt
  | jt, row :: rest =>
    match AppendRow jt row [] with
    | .error e => .error e
    | .ok jt => appendRows jt rest

/-- The record that `appendToArray` builds for a row under the given header keys. -/
def rowRecord (Headers : List Str) (row : Row) : GoMap Str :=
  fillRowData Headers row 0 GoMap.empty

/-- The structure that a table has accumulated, which is what `Render` commits:
`ArrayData` in array mode, `Data` in hierarchical mode. -/
def accumulated (jt : CustomTable) : TableData :=
  if jt.isArray then TableData.array jt.ArrayData else TableData.hierarchy jt.Data

/-- One table of a command on the renderer `Table`: reset, append the rows, render.
The caller works on the instance that `NewCustomTable` returns; its maps are those
of `Table`, so the next reset finds in `Table` the `AllData` that this run leaves. -/
def renderTable (renderText : Writer → Str) (Table : CustomTable) (name : Str)
    (headers : Option Row) (rows : List Row) : Except String CustomTable :=
  match NewCustomTable (some Table) name headers with
  | .error e => .error e
  | .ok t =>
    match appendRows t rows with
    | .error e => .error e
    | .ok t =>
      match Render renderText t with
      | .error e => .error e
      | .ok (_, t) => .ok t

/-- The structure accumulated from the rows of one table alone: reset and appends on
a renderer that holds nothing else. -/
def tableAlone (name : Str) (headers : Option Row) (rows : List Row) :
    Except String TableData :=
  match NewCustomTable (some (emptyJsonTable [])) name headers with
  | .error e => .error e
  | .ok t =>
    match appendRows t rows with
    | .error e => .error e
    | .ok t => .ok (accumulated t)

/-- Calling `AppendHeader` with each of the given rows in turn; a failing call ends the
run. -/
def appendHeaders : CustomTable → List Row → Except String CustomTable
  | jt, [] => .ok jt
  | jt, headers :: rest =>
    match AppendHeader jt headers with
    | .error e => .error e
    | .ok jt => appendHeaders jt rest

/-- The `Data` that `appendToHierarchy` leaves, as a function of the `Data` it finds. -/
def hierarchyData (data : GoMap Entry) (row : Row) : GoMap Entry :=
  (appendToHierarchy { emptyJsonTable [] with Data := data } row).Data

/-- Two tables in JSON mode that agree on what the accumulation of rows reads and
writes: the mode, `Data`, `ArrayData` and, in array mode, the header keys. -/
def SameBuffers (t u : CustomTable) : Prop :=
  t.AsJson = some true ∧ u.AsJson = some true ∧ t.isArray = u.isArray ∧ t.Data = u.Data ∧
    t.ArrayData = u.ArrayData ∧ (t.isArray = true → t.Headers = u.Headers)

/-- Two tables of one command, one after the other, on the renderer `Table`. -/
def renderTwoTables (renderText : Writer → Str) (Table : CustomTable)
    (name1 : Str) (headers1 : Option Row) (rows1 : List Row)
    (name2 : Str) (headers2 : Option Row) (rows2 : List Row) : Except String CustomTable :=
  match renderTable renderText Table name1 headers1 rows1 with
  | .error e => .error e
  | .ok t => renderTable renderText t name2 headers2 rows2

/-! ## The describe command (`cmd/blockchaincmd/describe.go`) -/

/-- Source `models.Token`. -/
structure Token where
  Name : Str
  Symbol : Str
  deriving DecidableEq, Repr

/-- Source `models.TokenAlloc`. -/
structure TokenAlloc where
  Name : Str
  Description : Str
  Address : Str
  PrivateKey : Str
  AmountToken : Str
  AmountWEI : Str
  deriving DecidableEq, Repr

/-- Source `models.ChainOwners`. -/
structure ChainOwners where
  Names : List Str
  Threshold : Nat
  deriving DecidableEq, Repr

/-- Source `models.Teleporter`. -/
structure Teleporter where
  MessengerAddress : Str
  RegistryAddress : Str
  deriving DecidableEq, Repr

/-- Source `models.LocalNetwork`; a nil pointer field is `none`. -/
structure LocalNetwork where
  Name : Str
  ChainID : Str
  SubnetID : Str
  BlockchainIDCB58 : Str
  BlockchainIDHex : Str
  RPCEndpoint : Str
  ChainOwners : Option ChainOwners
  Teleporter : Option Teleporter
  deriving DecidableEq, Repr

/-- Source `models.SmartContract`. -/
structure SmartContract where
  Description : Str
  Address : Str
  Deployer : Str
  deriving DecidableEq, Repr

/-- Source `models.Precompile`, an address being its text. -/
structure Precompile where
  Name : Str
  AdminAddresses : List Str
  ManagerAddresses : List Str
  EnabledAddresses : List Str
  deriving DecidableEq, Repr

/-- Source `models.RPCURL`. -/
structure RPCURL where
  Name : Str
  URL : Str
  CodespaceURL : Str
  deriving DecidableEq, Repr

/-- Source `models.Node`. -/
structure Node where
  Name : Str
  NodeID : Str
  URL : Str
  CodespaceURL : Str
  deriving DecidableEq, Repr

/-- Source `models.Wallet`. -/
structure Wallet where
  NetworkRPCURL : Str
  NetworkName : Str
  ChainID : Str
  TokenSymbol : Str
  TokenName : Str
  deriving DecidableEq, Repr

/-- Source `models.SubnetInfo`; a nil pointer field is `none`. -/
structure SubnetInfo where
  Name : Str
  VMVersion : Str
  VMID : Str
  Validation : Str
  LocalNetworks : Option (List LocalNetwork)
  Token : Option Token
  TokenAllocations : Option (List TokenAlloc)
  SmartContracts : Option (List SmartContract)
  PrecompileConfigs : Option (List Precompile)
  RPCURLs : Option (List RPCURL)
  Nodes : Option (List Node)
  Wallet : Option Wallet
  deriving DecidableEq, Repr

/-- What `ux.Logger.PrintToUser` is given: a message, or the `Render()` of a go-pretty
writer. -/
inductive Printed where
  | message (msg : Str)
  | table (w : Writer)
  deriving DecidableEq, Repr

/-- How a printing function ends: by its early `return`, or at its end with what it
has printed. -/
inductive Printing where
  | returnedEarly
  | done (out : List Printed)
  deriving DecidableEq, Repr

/-- Go `len(*p)` for a pointer to a slice. -/
def lenDeref {α : Type} (p : Option (List α)) : Except String Nat :=
  match p with
  | none => .error nilDereference
  | some l => .ok l.length

/-- The condition `tokenAllocations == nil && len(*tokenAllocations) == 0` of
`printAllocations`: the right operand is evaluated only when the left one holds. -/
def allocationsGuard (tokenAllocations : Option (List TokenAlloc)) : Except String Bool :=
  if tokenAllocations.isNone then
    match lenDeref tokenAllocations with
    | .error e => .error e
    | .ok n => .ok (n == 0)
  else .ok false

/-- The row that `printAllocations` appends for one allocation; `orangeWrap` is
`logging.Orange.Wrap`. -/
def allocationRow (orangeWrap : Str → Str) (allocation : TokenAlloc) : Row :=
  [orangeWrap allocation.Description ++ [10] ++ allocation.Name,
   allocation.Address ++ [10] ++ allocation.PrivateKey,
   allocation.AmountToken, allocation.AmountWEI]

/-- Source `printAllocations`; a nil dereference is an error. -/
def printAllocations (orangeWrap : Str → Str) (tokenAllocations : Option (List TokenAlloc))
    (token : Option Token) : Except String Printing :=
  match allocationsGuard tokenAllocations with
  | .error e => .error e
  | .ok true => .ok Printing.returnedEarly
  | .ok false =>
    let t : Writer :=
      { NewWriter with titleAlign := Align.Center, titleFormat := Format.Upper,
                       separateRows := true, title := ascii "Initial Token Allocation" }
    match token with
    | none => .error nilDereference
    | some tk =>
      let t : Writer :=
        { t with header := t.header ++
            [[ascii "Description", ascii "Address and Private Key",
              ascii "Amount (" ++ tk.Symbol ++ ascii ")", ascii "Amount (wei)"]] }
      match tokenAllocations with
      | none => .error nilDereference
      | some allocations =>
        let t : Writer :=
          allocations.foldl
            (fun t allocation =>
              { t with rows := t.rows ++ [(allocationRow orangeWrap allocation, [])] }) t
        .ok (Printing.done [Printed.message [], Printed.table t])

/-- The end of `GatherSubnetInfo` that fills the token and the genesis fields, from
`// Token` to the end of the `ByteSliceIsSubnetEvmGenesis` block.  The calls out of
the file are arguments: the sidecar's token name and symbol, whether the genesis is
a Subnet-EVM genesis, its decoding, and the three gathering functions. -/
def gatherGenesisFields {Genesis : Type} (subnetInfo : SubnetInfo) (tokenName tokenSymbol : Str)
    (isSubnetEvmGenesis : Bool) (toGenesis : Except String Genesis)
    (gatherAllocations : Genesis → Except String (List TokenAlloc))
    (gatherSmartContracts : Genesis → List SmartContract)
    (gatherPrecompiles : Genesis → List Precompile) : Except String SubnetInfo :=
  let subnetInfo := { subnetInfo with Token := some ⟨tokenName, tokenSymbol⟩ }
  if isSubnetEvmGenesis then
    match toGenesis with
    | .error e => .error e
    | .ok genesis =>
      match gatherAllocations genesis with
      | .error e => .error e
      | .ok allocs =>
        .ok { subnetInfo with TokenAllocations := some allocs,
                              SmartContracts := some (gatherSmartContracts genesis),
                              PrecompileConfigs := some (gatherPrecompiles genesis) }
  else .ok subnetInfo

/-- Source `PrintSubnetInfo`, around its call of `printAllocations`.  The first table
is rendered, and the teleporter and token tables are built, only inside the block
`if subnetInfo.LocalNetworks != nil`, which stands as `localTables`; what follows
the call of `printAllocations` stands as `afterAllocations`. -/
def PrintSubnetInfo (orangeWrap : Str → Str)
    (localTables : SubnetInfo → List LocalNetwork → Except String (List Printed))
    (afterAllocations : SubnetInfo → Except String (List Printed))
    (subnetInfo : SubnetInfo) : Except String (List Printed) :=
  let first : Except String (List Printed) :=
    match subnetInfo.LocalNetworks with
    | none => .ok []
    | some localNetworks => localTables subnetInfo localNetworks
  match first with
  | .error e => .error e
  | .ok out1 =>
    match printAllocations orangeWrap subnetInfo.TokenAllocations subnetInfo.Token with
    | .error e => .error e
    | .ok printing =>
      let out2 : List Printed :=
        match printing with
        | Printing.returnedEarly => []
        | Printing.done out => out
      match afterAllocations subnetInfo with
      | .error e => .error e
      | .ok out3 => .ok (out1 ++ out2 ++ out3)

/-- Source `describe`.  The calls out of the file are arguments: whether the genesis
exists and the message printed when it does not, the two flags, `printGenesis`, the
result of `GatherSubnetInfo`, `PrintSubnetInfo`, what follows it in text mode, and
`PrintJSONToUser`. -/
def describe (genesisExists : Bool) (notFound : Str) (printGenesisOnly asJson : Bool)
    (printGenesis : Except String (List Printed)) (gathered : Except String SubnetInfo)
    (printSubnetInfo : SubnetInfo → Except String (List Printed))
    (afterPrint : Except String (List Printed))
    (printJSON : SubnetInfo → Except String (List Printed)) : Except String (List Printed) :=
  if !genesisExists then .ok [Printed.message notFound]
  else if printGenesisOnly then printGenesis
  else
    match gathered with
    | .error e => .error e
    | .ok subnetInfo =>
      if !asJson then
        match printSubnetInfo subnetInfo with
        | .error e => .error e
        | .ok out1 =>
          match afterPrint with
          | .error e => .error e
          | .ok out2 => .ok (out1 ++ out2)
      else printJSON subnetInfo

/-! ## The replacement loop -/

theorem replaceAllFrom_skip (re : Str → Option Nat) (repl : Str → Str) (k : Nat) (s : Str) :
    replaceAllFrom re repl k s = replaceAllFrom re repl 0 (s.drop k) := by
  induction s generalizing k with
  | nil => cases k <;> simp [replaceAllFrom]
  | cons c cs ih =>
    cases k with
    | zero => simp
    | succ k => simp [replaceAllFrom, ih k]

theorem replaceAllFrom_none (re : Str → Option Nat) (repl : Str → Str) (c : Nat) (cs : Str)
    (h : re (c :: cs) = none) :
    replaceAllFrom re repl 0 (c :: cs) = c :: replaceAllFrom re repl 0 cs := by
  simp [replaceAllFrom, h]

theorem replaceAllFrom_some (re : Str → Option Nat) (repl : Str → Str) (c : Nat) (cs : Str)
    (n : Nat) (h : re (c :: cs) = some (n + 1)) :
    replaceAllFrom re repl 0 (c :: cs) =
      repl (c :: cs.take n) ++ replaceAllFrom re repl 0 (cs.drop n) := by
  simp [replaceAllFrom, h, ← replaceAllFrom_skip]

/-- Where the expression matches at no position, nothing is replaced. -/
theorem replaceAllFrom_id (re : Str → Option Nat) (repl : Str → Str) (s : Str)
    (h : ∀ t, t <:+ s → re t = none) : replaceAllFrom re repl 0 s = s := by
  induction s with
  | nil => simp [replaceAllFrom]
  | cons c cs ih =>
    rw [replaceAllFrom_none re repl c cs (h _ (List.suffix_refl _)),
      ih (fun t ht => h t (ht.trans (List.suffix_cons c cs)))]

/-! ## Collapsing the non-alphanumeric runs -/

theorem collapse_eq_aux (s : Str) :
    replaceAllFrom reNonAlphanumeric (fun _ => [95]) 0 s = collapseFrom false s ∧
    replaceAllFrom reNonAlphanumeric (fun _ => [95])
      (s.takeWhile (fun b => !isAlphanumeric b)).length s = collapseFrom true s := by
  induction s with
  | nil => simp [replaceAllFrom, collapseFrom]
  | cons c cs ih =>
    by_cases hc : isAlphanumeric c = true
    · have h0 : replaceAllFrom reNonAlphanumeric (fun _ => [95]) 0 (c :: cs)
          = c :: collapseFrom false cs := by
        rw [replaceAllFrom_none _ _ _ _ (by simp [reNonAlphanumeric, List.takeWhile, hc]), ih.1]
      refine ⟨by simp [h0, collapseFrom, hc], ?_⟩
      simp only [List.takeWhile, hc, Bool.not_true, List.length_nil]
      simp [h0, collapseFrom, hc]
    · have hc' : isAlphanumeric c = false := by simpa using hc
      constructor
      · simp only [replaceAllFrom, reNonAlphanumeric, List.takeWhile, hc', Bool.not_false,
          List.length_cons, Nat.add_sub_cancel, collapseFrom]
        simp [ih.2]
      · simp only [List.takeWhile, hc', Bool.not_false, List.length_cons, replaceAllFrom,
          collapseFrom]
        simp [ih.2]

theorem collapse_eq (s : Str) :
    ReplaceAllString reNonAlphanumeric s [95] = collapseFrom false s :=
  (collapse_eq_aux s).1

/-! ## The shape of a key -/

theorem alnum_ne_underscore {c : Nat} (h : isAlphanumeric c = true) : c ≠ 95 := by
  intro hc; subst hc; simp [isAlphanumeric] at h

theorem collapseFrom_mem (b : Bool) (s : Str) :
    ∀ x ∈ collapseFrom b s, isAlphanumeric x = true ∨ x = 95 := by
  induction s generalizing b with
  | nil => simp [collapseFrom]
  | cons c cs ih =>
    intro x hx
    by_cases hc : isAlphanumeric c = true
    · simp only [collapseFrom, hc, if_true, List.mem_cons] at hx
      rcases hx with rfl | hx
      · exact Or.inl hc
      · exact ih _ x hx
    · cases b
      · simp only [collapseFrom, hc, if_false, List.mem_cons, Bool.false_eq_true] at hx
        rcases hx with rfl | hx
        · exact Or.inr rfl
        · exact ih _ x hx
      · simp only [collapseFrom, hc, if_false, if_true] at hx
        exact ih _ x hx

theorem collapseFrom_chain (b : Bool) (s : Str) :
    List.Chain' (fun x y : Nat => ¬ (x = 95 ∧ y = 95)) (collapseFrom b s) ∧
      (b = true → (collapseFrom b s).head? ≠ some 95) := by
  induction s generalizing b with
  | nil => simp [collapseFrom]
  | cons c cs ih =>
    by_cases hc : isAlphanumeric c = true
    · have hne := alnum_ne_underscore hc
      simp only [collapseFrom, hc, if_true, List.head?_cons]
      refine ⟨List.chain'_cons'.2 ⟨fun y _ h => hne h.1, (ih false).1⟩, fun _ h => ?_⟩
      exact hne (Option.some.inj h)
    · cases b
      · simp only [collapseFrom, hc, if_false, Bool.false_eq_true]
        refine ⟨List.chain'_cons'.2 ⟨fun y hy h => ?_, (ih true).1⟩, fun h => by simp at h⟩
        have hy' : (collapseFrom true cs).head? = some y := hy
        exact (ih true).2 rfl (by rw [hy', h.2])
      · have hc' : isAlphanumeric c = false := by simpa using hc
        simp only [collapseFrom, hc', Bool.false_eq_true, if_false, if_true]
        exact ⟨(ih true).1, fun _ => (ih true).2 rfl⟩

theorem dropWhile_head_not (p : Nat → Bool) (l : Str) (x : Nat)
    (h : (l.dropWhile p).head? = some x) : p x = false := by
  have := List.head?_dropWhile_not p l
  rw [h] at this
  exact this

theorem Trim_within (s cut : Str) : Trim s cut <:+: s :=
  ( List.rdropWhile_prefix _ _).isInfix.trans (List.dropWhile_suffix _).isInfix

theorem Trim_getLast (s cut : Str) (x : Nat) (h : (Trim s cut).getLast? = some x) :
    cut.contains x = false := by
  unfold Trim at h
  rw [List.getLast?_reverse] at h
  exact dropWhile_head_not _ _ _ h

theorem Trim_head (s cut : Str) (x : Nat) (h : (Trim s cut).head? = some x) :
    cut.contains x = false := by
  unfold Trim at h
  rw [List.head?_reverse] at h
  obtain ⟨r, hr⟩ := List.dropWhile_suffix (fun b => cut.contains b)
    (l := (s.dropWhile (fun b => cut.contains b)).reverse)
  have h2 : (s.dropWhile (fun b => cut.contains b)).reverse.getLast? = some x := by
    rw [← hr, List.getLast?_append, h]; rfl
  rw [List.getLast?_reverse] at h2
  exact dropWhile_head_not _ _ _ h2

theorem contains_underscore (x : Nat) : ([95] : Str).contains x = false ↔ x ≠ 95 := by
  by_cases h : x = 95
  · subst h; simp
  · simp [h]

theorem lowerByte_eq_underscore (x : Nat) : lowerByte x = 95 ↔ x = 95 := by
  unfold lowerByte; split <;> omega

theorem lowerByte_key (x : Nat) (h : isAlphanumeric x = true ∨ x = 95) :
    isKeyByte (lowerByte x) = true := by
  rcases h with h | rfl
  · simp only [isAlphanumeric, Bool.or_eq_true, Bool.and_eq_true, decide_eq_true_eq] at h
    simp only [isKeyByte, lowerByte, Bool.or_eq_true, Bool.and_eq_true, decide_eq_true_eq,
      beq_iff_eq]
    split <;> omega
  · decide

theorem chain_no_double (t : Str)
    (h : List.Chain' (fun x y : Nat => ¬ (x = 95 ∧ y = 95)) t) : ¬ ([95, 95] <:+: t) := by
  intro hi
  have := List.chain'_pair.1 ( List.Chain'.infix h hi)
  exact this ⟨rfl, rfl⟩

theorem toSnakeCase_eq_lower (s : Str) : toSnakeCase s = ToLower (lowerArg s) := rfl

theorem lowerArg_mem (s : Str) : ∀ x ∈ lowerArg s, isAlphanumeric x = true ∨ x = 95 := by
  intro x hx
  unfold lowerArg at hx
  rw [collapse_eq] at hx
  exact collapseFrom_mem _ _ x ((Trim_within _ _).subset hx)

/-- The argument of `ToLower` in `toSnakeCase` is an ASCII string, on which Go's
`strings.ToLower` works bytewise. -/
theorem toSnakeCase_lower_arg_ascii (s : Str) : ∀ x ∈ lowerArg s, x < 128 := by
  intro x hx
  rcases lowerArg_mem s x hx with h | rfl
  · simp only [isAlphanumeric, Bool.or_eq_true, Bool.and_eq_true, decide_eq_true_eq] at h
    omega
  · decide

theorem toSnakeCase_isSnakeKey (s : Str) : IsSnakeKey (toSnakeCase s) := by
  have hchain : List.Chain' (fun x y : Nat => ¬ (x = 95 ∧ y = 95)) (lowerArg s) := by
    unfold lowerArg
    rw [collapse_eq]
    exact List.Chain'.infix (collapseFrom_chain false _).1 (Trim_within _ _)
  rw [toSnakeCase_eq_lower]
  refine ⟨?_, ?_, ?_, ?_⟩
  · intro b hb
    obtain ⟨x, hx, rfl⟩ := List.mem_map.1 hb
    exact lowerByte_key x (lowerArg_mem s x hx)
  · intro h
    rw [ToLower, List.head?_map] at h
    obtain ⟨x, hx, hx2⟩ := Option.map_eq_some'.1 h
    have := (contains_underscore x).1 (Trim_head _ _ x hx)
    exact this ((lowerByte_eq_underscore x).1 hx2)
  · intro h
    rw [ToLower, List.getLast?_map] at h
    obtain ⟨x, hx, hx2⟩ := Option.map_eq_some'.1 h
    have := (contains_underscore x).1 (Trim_getLast _ _ x hx)
    exact this ((lowerByte_eq_underscore x).1 hx2)
  · apply chain_no_double
    rw [ToLower, List.chain'_map]
    refine hchain.imp (fun {a b} hab h => hab ?_)
    exact ⟨(lowerByte_eq_underscore a).1 h.1, (lowerByte_eq_underscore b).1 h.2⟩

/-! ## A key is a fixed point -/

theorem reColors_none_of_head (c : Nat) (cs : Str) (h : c ≠ 27) : reColors (c :: cs) = none := by
  unfold reColors
  split
  · rename_i heq
    simp only [List.cons.injEq] at heq
    exact absurd heq.1 h
  · rfl

theorem reParentheses_none_of_head (c : Nat) (cs : Str) (h : c ≠ 40) :
    reParentheses (c :: cs) = none := by
  simp [reParentheses, h]

theorem replaceAllFrom_id_of_head (re : Str → Option Nat) (repl : Str → Str) (s : Str)
    (h : ∀ c ∈ s, ∀ cs, re (c :: cs) = none) : replaceAllFrom re repl 0 s = s := by
  induction s with
  | nil => simp [replaceAllFrom]
  | cons c cs ih =>
    rw [replaceAllFrom_none re repl c cs (h c (List.mem_cons_self _ _) cs),
      ih (fun d hd => h d (List.mem_cons_of_mem _ hd))]

theorem ReplaceAll_eq_map (s : Str) :
    ReplaceAll s 10 [45] = s.map (fun b => if b = 10 then 45 else b) := by
  induction s with
  | nil => rfl
  | cons c cs ih =>
    simp only [ReplaceAll, ih, List.map_cons]
    split <;> simp

theorem keyByte_cases {b : Nat} (h : isKeyByte b = true) :
    (isAlphanumeric b = true ∧ lowerByte b = b) ∨ b = 95 := by
  simp only [isKeyByte, Bool.or_eq_true, Bool.and_eq_true, decide_eq_true_eq, beq_iff_eq] at h
  by_cases h95 : b = 95
  · exact Or.inr h95
  · left
    refine ⟨?_, ?_⟩
    · simp only [isAlphanumeric, Bool.or_eq_true, Bool.and_eq_true, decide_eq_true_eq]
      omega
    · unfold lowerByte; split <;> omega

theorem keyByte_ne {b : Nat} (h : isKeyByte b = true) : b ≠ 27 ∧ b ≠ 10 ∧ b ≠ 40 := by
  simp only [isKeyByte, Bool.or_eq_true, Bool.and_eq_true, decide_eq_true_eq, beq_iff_eq] at h
  omega

theorem noColorNoLines_of_key (t : Str) (h : ∀ b ∈ t, isKeyByte b = true) :
    noColorNoLines t = t := by
  have h1 : ReplaceAllString reColors t [] = t :=
    replaceAllFrom_id_of_head _ _ t
      (fun c hc cs => reColors_none_of_head c cs (keyByte_ne (h c hc)).1)
  show ReplaceAll (ReplaceAllString reColors t []) 10 [45] = t
  rw [h1, ReplaceAll_eq_map]
  conv_rhs => rw [← List.map_id t]
  apply List.map_congr_left
  intro b hb
  simp [(keyByte_ne (h b hb)).2.1]

theorem collapseFrom_of_key (t : Str) (h : ∀ b ∈ t, isKeyByte b = true)
    (hd : ¬ ([95, 95] <:+: t)) : collapseFrom false t = t := by
  induction t with
  | nil => rfl
  | cons c cs ih =>
    have ihcs := ih (fun b hb => h b (List.mem_cons_of_mem _ hb))
      (fun hi => hd (hi.trans (List.suffix_cons c cs).isInfix))
    rcases keyByte_cases (h c (List.mem_cons_self _ _)) with ⟨hc, _⟩ | rfl
    · simp [collapseFrom, hc, ihcs]
    · have hna : isAlphanumeric 95 = false := by decide
      simp only [collapseFrom, hna, Bool.false_eq_true, if_false]
      cases cs with
      | nil => rfl
      | cons d ds =>
        rcases keyByte_cases (h d (by simp)) with ⟨hdk, _⟩ | rfl
        · have : collapseFrom true (d :: ds) = collapseFrom false (d :: ds) := by
            simp [collapseFrom, hdk]
          rw [this, ihcs]
        · exact absurd (List.prefix_append [95, 95] ds).isInfix hd

theorem Trim_of_ends (t : Str) (hh : t.head? ≠ some 95) (hl : t.getLast? ≠ some 95) :
    Trim t [95] = t := by
  have h1 : t.dropWhile (fun b => ([95] : Str).contains b) = t := by
    cases t with
    | nil => rfl
    | cons c cs =>
      have hc : c ≠ 95 := fun hc => hh (by simp [hc])
      rw [List.dropWhile_cons_of_neg]
      simpa using hc
  unfold Trim
  rw [h1]
  have h2 : t.reverse.dropWhile (fun b => ([95] : Str).contains b) = t.reverse := by
    rw [← List.head?_reverse] at hl
    generalize t.reverse = r at hl
    cases r with
    | nil => rfl
    | cons c cs =>
      have hc : c ≠ 95 := fun hc => hl (by simp [hc])
      rw [List.dropWhile_cons_of_neg]
      simpa using hc
  rw [h2, List.reverse_reverse]

theorem toSnakeCase_of_key (t : Str) (h : IsSnakeKey t) : toSnakeCase t = t := by
  obtain ⟨hk, hh, hl, hd⟩ := h
  have h2 : ReplaceAllStringFunc reParentheses t parenthesesRepl = t :=
    replaceAllFrom_id_of_head _ _ t
      (fun c hc cs => reParentheses_none_of_head c cs (keyByte_ne (hk c hc)).2.2)
  rw [toSnakeCase_eq_lower, lowerArg, noColorNoLines_of_key t hk, h2,
    collapse_eq, collapseFrom_of_key t hk hd, Trim_of_ends t hh hl]
  unfold ToLower
  conv_rhs => rw [← List.map_id t]
  apply List.map_congr_left
  intro b hb
  rcases keyByte_cases (hk b hb) with ⟨_, h2⟩ | rfl
  · simpa using h2
  · rfl

/-! ## Rewriting the parentheses does not change the collapsed string -/

theorem collapseFrom_append (b : Bool) (u v : Str) :
    collapseFrom b (u ++ v) = collapseFrom b u ++ collapseFrom (endFlag b u) v := by
  induction u generalizing b with
  | nil => rfl
  | cons c cs ih =>
    by_cases hc : isAlphanumeric c = true
    · simp [collapseFrom, endFlag, hc, ih]
    · have hc' : isAlphanumeric c = false := by simpa using hc
      cases b <;> simp [collapseFrom, endFlag, hc', ih]

theorem endFlag_append (b : Bool) (u v : Str) :
    endFlag b (u ++ v) = endFlag (endFlag b u) v := by
  induction u generalizing b with
  | nil => rfl
  | cons c cs ih => simp [endFlag, ih]

theorem collapseFrom_cons_not (b : Bool) (c : Nat) (cs : Str)
    (hc : isAlphanumeric c = false) :
    collapseFrom b (c :: cs) = (if b then [] else [95]) ++ collapseFrom true cs := by
  cases b <;> simp [collapseFrom, hc]

/-- A non-empty run of bytes outside the class collapses like one underscore. -/
theorem collapseFrom_run (b : Bool) (P : Str) (hne : P ≠ [])
    (hall : ∀ x ∈ P, isAlphanumeric x = false) :
    collapseFrom b P = (if b then [] else [95]) ∧ endFlag b P = true := by
  induction P generalizing b with
  | nil => exact absurd rfl hne
  | cons c cs ih =>
    have hc : isAlphanumeric c = false := hall c (List.mem_cons_self _ _)
    rw [collapseFrom_cons_not b c cs hc]
    cases cs with
    | nil => simp [collapseFrom, endFlag, hc]
    | cons d ds =>
      have := ih true (by simp) (fun x hx => hall x (List.mem_cons_of_mem _ hx))
      refine ⟨by rw [this.1]; simp, ?_⟩
      have h2 : endFlag b (c :: d :: ds) = endFlag true (d :: ds) := by
        rw [endFlag, hc]; rfl
      rw [h2, this.2]

theorem paren_not_alnum (x : Nat) (h : ([40, 41] : Str).contains x = true) :
    isAlphanumeric x = false := by
  have : x = 40 ∨ x = 41 := by simpa using h
  rcases this with rfl | rfl <;> decide

theorem lazyUntilClose_take (cs : Str) (m : Nat) (h : lazyUntilClose cs = some m) :
    ∃ body, cs.take m = body ++ [41] := by
  induction cs generalizing m with
  | nil => simp [lazyUntilClose] at h
  | cons c cs ih =>
    unfold lazyUntilClose at h
    by_cases h41 : c = 41
    · simp only [h41, if_true, Option.some.injEq] at h
      subst h
      exact ⟨[], by simp [h41]⟩
    · by_cases h10 : c = 10
      · simp [h41, h10] at h
      · simp only [h41, h10, if_false, Option.map_eq_some'] at h
        obtain ⟨n, hn, rfl⟩ := h
        obtain ⟨body, hb⟩ := ih n hn
        exact ⟨c :: body, by simp [hb]⟩

/-- A match of `reParentheses` begins with `(` and ends with `)`. -/
theorem reParentheses_match (c : Nat) (cs : Str) (n : Nat)
    (h : reParentheses (c :: cs) = some n) :
    ∃ m body, n = m + 1 ∧ c = 40 ∧ cs.take m = body ++ [41] := by
  unfold reParentheses at h
  by_cases h40 : c = 40
  · simp only [h40, if_true, Option.map_eq_some'] at h
    obtain ⟨m, hm, rfl⟩ := h
    obtain ⟨body, hb⟩ := lazyUntilClose_take cs m hm
    exact ⟨m, body, rfl, h40, hb⟩
  · simp [h40] at h

/-- The three parts of a string under `Trim`. -/
theorem Trim_split (s cut : Str) :
    ∃ P1 P2, s = P1 ++ Trim s cut ++ P2 ∧ (∀ x ∈ P1, cut.contains x = true) ∧
      (∀ x ∈ P2, cut.contains x = true) ∧
      P1 = s.takeWhile (fun b => cut.contains b) := by
  refine ⟨s.takeWhile (fun b => cut.contains b),
    ((s.dropWhile (fun b => cut.contains b)).reverse.takeWhile (fun b => cut.contains b)).reverse,
    ?_, ?_, ?_, rfl⟩
  · have h1 := List.takeWhile_append_dropWhile (fun b => cut.contains b) s
    have h2 := List.takeWhile_append_dropWhile (fun b => cut.contains b)
      (s.dropWhile (fun b => cut.contains b)).reverse
    have h3 := congrArg List.reverse h2
    rw [List.reverse_append, List.reverse_reverse] at h3
    unfold Trim
    rw [List.append_assoc, h3, h1]
  · intro x hx
    exact (List.mem_takeWhile_imp hx)
  · intro x hx
    exact (List.mem_takeWhile_imp (List.mem_reverse.1 hx))

theorem collapseFrom_parenthesesRepl (b : Bool) (M : Str) (hh : M.head? = some 40)
    (hl : M.getLast? = some 41) :
    collapseFrom b (parenthesesRepl M) = collapseFrom b M ∧
    endFlag b (parenthesesRepl M) = endFlag b M := by
  obtain ⟨P1, P2, hs, hP1, hP2, hP1eq⟩ := Trim_split M [40, 41]
  have hP1ne : P1 ≠ [] := by
    obtain ⟨M', rfl⟩ := List.head?_eq_some_iff.1 hh
    rw [hP1eq]; simp [List.takeWhile]
  have hP1a : ∀ x ∈ P1, isAlphanumeric x = false := fun x hx => paren_not_alnum x (hP1 x hx)
  have hP2a : ∀ x ∈ P2, isAlphanumeric x = false := fun x hx => paren_not_alnum x (hP2 x hx)
  have hna : ∀ x ∈ ([95] : Str), isAlphanumeric x = false := by
    intro x hx; rw [List.mem_singleton.1 hx]; decide
  have hrepl : parenthesesRepl M =
      if Trim M [40, 41] = [] then [95] else [95] ++ Trim M [40, 41] ++ [95] := rfl
  have hlastT : ∀ x, (Trim M [40, 41]).getLast? = some x → ([40, 41] : Str).contains x = false :=
    fun x hx => Trim_getLast M [40, 41] x hx
  rw [hrepl]
  clear hrepl hP1eq hh
  generalize Trim M [40, 41] = inner at hs hlastT ⊢
  subst hs
  have r1 := fun b' => collapseFrom_run b' P1 hP1ne hP1a
  have r3 := fun b' => collapseFrom_run b' [95] (by simp) hna
  by_cases hin : inner = []
  · subst hin
    have := collapseFrom_run b (P1 ++ [] ++ P2) (by simp [hP1ne])
      (fun x hx => by
        rcases List.mem_append.1 hx with h | h
        · rcases List.mem_append.1 h with h | h
          · exact hP1a x h
          · simp at h
        · exact hP2a x h)
    simp only [if_true]
    exact ⟨by rw [this.1, (r3 b).1], by rw [this.2, (r3 b).2]⟩
  · have hP2ne : P2 ≠ [] := by
      intro hP2e
      subst hP2e
      obtain ⟨x, hx⟩ : ∃ x, inner.getLast? = some x := by
        cases hL : inner.getLast? with
        | none => exact absurd (List.getLast?_eq_none_iff.1 hL) hin
        | some x => exact ⟨x, rfl⟩
      have hnot := hlastT x hx
      rw [List.append_nil, List.getLast?_append, hx] at hl
      have hx41 : x = 41 := Option.some.inj hl
      subst hx41
      simp at hnot
    have r2 := fun b' => collapseFrom_run b' P2 hP2ne hP2a
    simp only [hin, if_false]
    refine ⟨?_, ?_⟩
    · simp only [collapseFrom_append, endFlag_append, (r1 _).1, (r1 _).2, (r2 _).1, (r3 _).1,
        (r3 _).2]
    · simp only [endFlag_append, (r2 _).2, (r3 _).2]

/-- The flag-indexed form of the main lemma, by induction on the length. -/
theorem collapseFrom_paren_aux (n : Nat) :
    ∀ (x : Str), x.length ≤ n → ∀ b : Bool,
      collapseFrom b (replaceAllFrom reParentheses parenthesesRepl 0 x) = collapseFrom b x := by
  induction n with
  | zero =>
    intro x hx b
    have : x = [] := List.length_eq_zero.1 (Nat.le_zero.1 hx)
    subst this; rfl
  | succ n ih =>
    intro x hx b
    cases x with
    | nil => rfl
    | cons c cs =>
      have hcs : cs.length ≤ n := by simpa using hx
      cases hre : reParentheses (c :: cs) with
      | none =>
        rw [replaceAllFrom_none _ _ c cs hre]
        by_cases hc : isAlphanumeric c = true
        · simp only [collapseFrom, hc, if_true, ih cs hcs false]
        · have hc' : isAlphanumeric c = false := by simpa using hc
          rw [collapseFrom_cons_not b c _ hc', collapseFrom_cons_not b c _ hc', ih cs hcs true]
      | some k =>
        obtain ⟨m, body, rfl, h40, hbody⟩ := reParentheses_match c cs k hre
        rw [replaceAllFrom_some _ _ c cs m hre]
        have hM : (c :: cs.take m : Str).head? = some 40 := by simp [h40]
        have hL : (c :: cs.take m : Str).getLast? = some 41 := by
          rw [hbody, ← List.cons_append, List.getLast?_concat]
        have hrep := collapseFrom_parenthesesRepl b (c :: cs.take m) hM hL
        have hdrop : (cs.drop m).length ≤ n := by
          rw [List.length_drop]; omega
        have hsplit : (c :: cs : Str) = (c :: cs.take m) ++ cs.drop m := by
          simp [List.take_append_drop]
        conv_rhs => rw [hsplit]
        rw [collapseFrom_append, collapseFrom_append, hrep.1, hrep.2, ih _ hdrop]

theorem collapseFrom_paren (x : Str) :
    collapseFrom false (ReplaceAllStringFunc reParentheses x parenthesesRepl) =
      collapseFrom false x :=
  collapseFrom_paren_aux x.length x (Nat.le_refl _) false

/-! ## Colour sequences -/

theorem run_then_stop (p : Nat → Bool) (ds : Str) (x : Nat) (r : Str)
    (hds : ∀ d ∈ ds, p d = true) (hx : p x = false) :
    (ds ++ x :: r).dropWhile p = x :: r ∧ (ds ++ x :: r).takeWhile p = ds := by
  induction ds with
  | nil => simp [List.dropWhile, List.takeWhile, hx]
  | cons d ds ih =>
    have hd := hds d (List.mem_cons_self _ _)
    have := ih (fun e he => hds e (List.mem_cons_of_mem _ he))
    simp [List.dropWhile, List.takeWhile, hd, this.1, this.2]

theorem reColors_some (t : Str) (n : Nat) (h : reColors t = some n) :
    IsColorSeq (t.take n) := by
  unfold reColors at h
  split at h
  · rename_i rest
    split at h
    · rename_i tail hdw
      simp only [Option.some.injEq] at h
      subst h
      refine ⟨rest.takeWhile isDigitOrSemicolon, fun d hd => List.mem_takeWhile_imp hd, ?_⟩
      have hsplit := List.takeWhile_append_dropWhile isDigitOrSemicolon rest
      rw [hdw] at hsplit
      have : (27 :: 91 :: rest : Str) =
          27 :: 91 :: (rest.takeWhile isDigitOrSemicolon ++ [109]) ++ tail := by
        conv_lhs => rw [← hsplit]
        simp
      rw [this]
      have hlen : (rest.takeWhile isDigitOrSemicolon).length + 3 =
          (27 :: 91 :: (rest.takeWhile isDigitOrSemicolon ++ [109]) : Str).length := by
        simp
      rw [hlen, List.take_left']
      rfl
    · simp at h
  · simp at h

theorem reColors_of_start (q t : Str) (hq : IsColorSeq q) (hp : q <+: t) :
    reColors t = some q.length := by
  obtain ⟨ds, hds, rfl⟩ := hq
  obtain ⟨r, rfl⟩ := hp
  have h109 : isDigitOrSemicolon 109 = false := by decide
  have := run_then_stop isDigitOrSemicolon ds 109 r hds h109
  have e : (27 :: 91 :: (ds ++ [109]) ++ r : Str) = 27 :: 91 :: (ds ++ 109 :: r) := by simp
  rw [e]
  unfold reColors
  simp only [this.1, this.2]
  simp

theorem hasColorSeq_iff (s : Str) : HasColorSeq s ↔ hasColorSeqCheck s = true := by
  unfold HasColorSeq hasColorSeqCheck
  rw [List.any_eq_true]
  constructor
  · rintro ⟨q, hq, hi⟩
    obtain ⟨t, hpre, hsuf⟩ := List.infix_iff_prefix_suffix.1 hi
    exact ⟨t, (List.mem_tails _ _).2 hsuf, by rw [reColors_of_start q t hq hpre]; rfl⟩
  · rintro ⟨t, ht, hsome⟩
    obtain ⟨n, hn⟩ := Option.isSome_iff_exists.1 hsome
    exact ⟨t.take n, reColors_some t n hn,
      ( List.take_prefix n t).isInfix.trans ((List.mem_tails _ _).1 ht).isInfix⟩

theorem escStartsSeq_of_check (s : Str) (h : escStartsSeqCheck s = true) : EscStartsSeq s := by
  intro p t hs
  unfold escStartsSeqCheck at h
  rw [List.all_eq_true] at h
  have hmem : (27 :: t : Str) ∈ s.tails := (List.mem_tails _ _).2 ⟨p, hs.symm⟩
  have := h _ hmem
  simp only [List.head?_cons, bne_self_eq_false, Bool.false_or] at this
  obtain ⟨n, hn⟩ := Option.isSome_iff_exists.1 this
  exact ⟨_, reColors_some _ n hn, List.take_prefix n _⟩

theorem hasColorSeq_mem_esc (s : Str) (h : HasColorSeq s) : 27 ∈ s := by
  obtain ⟨q, ⟨ds, _, rfl⟩, hi⟩ := h
  exact hi.subset (List.mem_cons_self _ _)

/-- Without a colour sequence in the input, the first step of `noColorNoLines` changes
nothing. -/
theorem stripColors_of_plain (s : Str) (h : ¬ HasColorSeq s) :
    ReplaceAllString reColors s [] = s := by
  apply replaceAllFrom_id
  intro t ht
  cases hre : reColors t with
  | none => rfl
  | some n =>
    exact absurd ⟨t.take n, reColors_some t n hre,
      ( List.take_prefix n t).isInfix.trans ht.isInfix⟩ h

theorem noColorNoLines_eq_map (s : Str) (h : ¬ HasColorSeq s) :
    noColorNoLines s = s.map (fun b => if b = 10 then 45 else b) := by
  show ReplaceAll (ReplaceAllString reColors s []) 10 [45] = _
  rw [stripColors_of_plain s h, ReplaceAll_eq_map]

theorem stripColors_no_esc (n : Nat) :
    ∀ s : Str, s.length ≤ n → EscStartsSeq s →
      27 ∉ replaceAllFrom reColors (fun _ => []) 0 s := by
  induction n with
  | zero =>
    intro s hs _
    have : s = [] := List.length_eq_zero.1 (Nat.le_zero.1 hs)
    subst this; simp [replaceAllFrom]
  | succ n ih =>
    intro s hs hesc
    cases s with
    | nil => simp [replaceAllFrom]
    | cons c cs =>
      have hcs : cs.length ≤ n := by simpa using hs
      by_cases hc : c = 27
      · subst hc
        obtain ⟨q, hq, hpre⟩ := hesc [] cs rfl
        have hre := reColors_of_start q _ hq hpre
        obtain ⟨ds, _, hqeq⟩ := hq
        obtain ⟨m, hm⟩ : ∃ m, q.length = m + 1 := ⟨ds.length + 2, by rw [hqeq]; simp⟩
        rw [hm] at hre
        rw [replaceAllFrom_some _ _ 27 cs m hre, List.nil_append]
        apply ih _ (by rw [List.length_drop]; omega)
        intro p t hpt
        apply hesc (27 :: cs.take m ++ p) t
        have := List.take_append_drop m cs
        rw [hpt] at this
        conv_lhs => rw [← this]
        simp
      · rw [replaceAllFrom_none _ _ c cs (reColors_none_of_head c cs hc)]
        intro hmem
        rcases List.mem_cons.1 hmem with h | h
        · exact hc h.symm
        · exact ih cs hcs (fun p t hpt => hesc (c :: p) t (by rw [hpt]; rfl)) h

theorem noColorNoLines_no_esc (s : Str) (h : EscStartsSeq s) : 27 ∉ noColorNoLines s := by
  show 27 ∉ ReplaceAll (ReplaceAllString reColors s []) 10 [45]
  rw [ReplaceAll_eq_map]
  intro hmem
  obtain ⟨b, hb, hb2⟩ := List.mem_map.1 hmem
  have hb27 : b = 27 := by
    by_cases h10 : b = 10
    · simp [h10] at hb2
    · simpa [h10] using hb2
  subst hb27
  exact stripColors_no_esc s.length s (Nat.le_refl _) h hb

/-! ## Maps -/

theorem lookupEntries_assign_self {β : Type} (l : List (Str × β)) (k : Str) (v : β) :
    lookupEntries (assignEntries l k v) k = some v := by
  induction l with
  | nil => simp [assignEntries, lookupEntries]
  | cons e rest ih =>
    obtain ⟨k', v'⟩ := e
    by_cases h : k' = k
    · simp [assignEntries, lookupEntries, h]
    · simp [assignEntries, lookupEntries, h, ih]

theorem lookupEntries_assign_ne {β : Type} (l : List (Str × β)) (k k2 : Str) (v : β)
    (hne : k2 ≠ k) : lookupEntries (assignEntries l k v) k2 = lookupEntries l k2 := by
  induction l with
  | nil => simp [assignEntries, lookupEntries, Ne.symm hne]
  | cons e rest ih =>
    obtain ⟨k', v'⟩ := e
    by_cases h : k' = k
    · subst h
      simp [assignEntries, lookupEntries, Ne.symm hne]
    · by_cases h2 : k' = k2
      · subst h2
        simp [assignEntries, lookupEntries, h]
      · simp [assignEntries, lookupEntries, h, h2, ih]

theorem GoMap.lookup_assign_self {β : Type} (m : GoMap β) (k : Str) (v : β) :
    (m.assign k v).lookup k = some v :=
  lookupEntries_assign_self m.entries k v

theorem GoMap.lookup_assign_ne {β : Type} (m : GoMap β) (k k2 : Str) (v : β) (hne : k2 ≠ k) :
    (m.assign k v).lookup k2 = m.lookup k2 :=
  lookupEntries_assign_ne m.entries k k2 v hne

/-! ## Rows of a hierarchical table -/

theorem AppendRow_hierarchy (jt : CustomTable) (row : Row) (cfg : List RowConfig)
    (hjson : jt.AsJson = some true) (hmode : jt.isArray = false) :
    AppendRow jt row cfg = .ok (appendToHierarchy jt row) := by
  simp [AppendRow, hjson, hmode]

theorem appendToHierarchy_two (jt : CustomTable) (k v : Str) :
    (appendToHierarchy jt [k, v]).Data =
      jt.Data.assign (toSnakeCase k) (Entry.text (noColorNoLines v)) := rfl

theorem appendToHierarchy_merged (jt : CustomTable) (k v : Str) :
    (appendToHierarchy jt [k, v, v]).Data =
      jt.Data.assign (toSnakeCase k) (Entry.text (noColorNoLines v)) := by
  simp [appendToHierarchy]

theorem appendToHierarchy_absent (jt : CustomTable) (k a b : Str) (hab : a ≠ b)
    (h : jt.Data.lookup (toSnakeCase k) = none) :
    (appendToHierarchy jt [k, a, b]).Data =
      (jt.Data.assign (toSnakeCase k) (Entry.nested GoMap.empty)).assign (toSnakeCase k)
        (Entry.nested (GoMap.empty.assign (toSnakeCase a) (noColorNoLines b))) := by
  simp [appendToHierarchy, hab, h, GoMap.lookup_assign_self]

theorem appendToHierarchy_nested (jt : CustomTable) (k a b : Str) (hab : a ≠ b)
    (m : GoMap Str) (h : jt.Data.lookup (toSnakeCase k) = some (Entry.nested m)) :
    (appendToHierarchy jt [k, a, b]).Data =
      jt.Data.assign (toSnakeCase k)
        (Entry.nested (m.assign (toSnakeCase a) (noColorNoLines b))) := by
  simp [appendToHierarchy, hab, h]

theorem appendToHierarchy_text (jt : CustomTable) (k a b : Str) (hab : a ≠ b)
    (s : Str) (h : jt.Data.lookup (toSnakeCase k) = some (Entry.text s)) :
    (appendToHierarchy jt [k, a, b]).Data = jt.Data := by
  simp [appendToHierarchy, hab, h]

theorem collapseFirst_eq (s : Str) : toSnakeCaseCollapseFirst s = toSnakeCase s := by
  have h1 : ReplaceAllStringFunc reParentheses
      (ReplaceAllString reNonAlphanumeric (noColorNoLines s) [95]) parenthesesRepl =
      ReplaceAllString reNonAlphanumeric (noColorNoLines s) [95] := by
    apply replaceAllFrom_id_of_head
    intro c hc cs
    apply reParentheses_none_of_head
    rw [collapse_eq] at hc
    rcases collapseFrom_mem _ _ c hc with h | rfl
    · intro h40; subst h40; simp [isAlphanumeric] at h
    · decide
  show ToLower (Trim (ReplaceAllStringFunc reParentheses
      (ReplaceAllString reNonAlphanumeric (noColorNoLines s) [95]) parenthesesRepl) [95]) =
    ToLower (lowerArg s)
  rw [h1, lowerArg, collapse_eq, collapse_eq, collapseFrom_paren]

/-! ## The claims -/

/-- C1: `toSnakeCase` is idempotent: for every input string `s`,
`toSnakeCase (toSnakeCase s) = toSnakeCase s`. -/
theorem toSnakeCase_idempotent (s : Str) : toSnakeCase (toSnakeCase s) = toSnakeCase s :=
  toSnakeCase_of_key _ (toSnakeCase_isSnakeKey s)

/-- C2: `toSnakeCase` maps the label `Amount (wei)` to `amount_wei` and the label
`VM ID` to `vm_id`. -/
theorem toSnakeCase_labels :
    toSnakeCase (ascii "Amount (wei)") = ascii "amount_wei" ∧
    toSnakeCase (ascii "VM ID") = ascii "vm_id" := by
  decide

/-- C3: for every input string `s`, `toSnakeCase s` is a JSON-safe snake_case key: it
holds only lowercase ASCII letters, ASCII digits and underscores (byte 95), it neither
begins nor ends with an underscore, and it has no two underscores in a row; for
`Owners (Threshold=2)` the underscore left at the end by the parenthesis rewrite is
trimmed. -/
theorem toSnakeCase_json_safe (s : Str) :
    (∀ b ∈ toSnakeCase s, (97 ≤ b ∧ b ≤ 122) ∨ (48 ≤ b ∧ b ≤ 57) ∨ b = 95) ∧
    (toSnakeCase s).head? ≠ some 95 ∧
    (toSnakeCase s).getLast? ≠ some 95 ∧
    ¬ ([95, 95] <:+: toSnakeCase s) ∧
    toSnakeCase (ascii "Owners (Threshold=2)") = ascii "owners_threshold_2" := by
  obtain ⟨hk, hh, hl, hd⟩ := toSnakeCase_isSnakeKey s
  refine ⟨fun b hb => ?_, hh, hl, hd, by decide⟩
  have := hk b hb
  simp only [isKeyByte, Bool.or_eq_true, Bool.and_eq_true, decide_eq_true_eq, beq_iff_eq]
    at this
  omega

/-- C4, as stated, fails: there is no input string on which collapsing the runs of
non-alphanumeric bytes before rewriting the parenthesised substrings gives a key
different from that of `toSnakeCase`. -/
theorem no_input_separates_the_orders :
    ¬ ∃ s : Str, toSnakeCaseCollapseFirst s ≠ toSnakeCase s := by
  rintro ⟨s, hs⟩
  exact hs (collapseFirst_eq s)

/-- C4, amended: the order of the two rewriting steps does not show in the key; for
every input string, collapsing the runs of non-alphanumeric bytes first and rewriting
the parenthesised substrings after gives the key that `toSnakeCase` gives, the
underscores around a parenthesised content being those of the collapsed
parentheses. -/
theorem toSnakeCaseCollapseFirst_eq_toSnakeCase (s : Str) :
    toSnakeCaseCollapseFirst s = toSnakeCase s ∧
    toSnakeCaseCollapseFirst (ascii "Owners (Threshold=2)") = ascii "owners_threshold_2" :=
  ⟨collapseFirst_eq s, by decide⟩

/-- C5, as stated, fails: the string `a-b` has no colour sequence and no newline, and
`noColorNoLines` returns it unchanged, so the result has a hyphen (45) at position 1,
where the input has no newline (10); the positions of the hyphens of the result are
not exactly the positions of the newlines of the input. -/
theorem noColorNoLines_keeps_hyphen :
    ¬ HasColorSeq [97, 45, 98] ∧
    noColorNoLines [97, 45, 98] = [97, 45, 98] ∧
    (noColorNoLines [97, 45, 98])[1]? = some 45 ∧
    ([97, 45, 98] : Str)[1]? ≠ some 10 ∧
    ¬ (∀ i : Nat, (noColorNoLines [97, 45, 98])[i]? = some 45 ↔
        ([97, 45, 98] : Str)[i]? = some 10) := by
  refine ⟨fun hc => absurd ((hasColorSeq_iff _).1 hc) (by decide), by decide, by decide,
    by decide, fun hall => ?_⟩
  have h1 : ([97, 45, 98] : Str)[1]? = some 10 := (hall 1).1 (by decide)
  exact absurd h1 (by decide)

/-- C5, amended: for every string `s` without an ANSI colour sequence,
`noColorNoLines s` has the length of `s`, has a hyphen (45) at every position where
`s` has a newline (10) and the byte of `s` at every other position; the result has a
hyphen exactly at the positions where `s` has a newline or a hyphen; it is `s` itself
when `s` has no newline. -/
theorem noColorNoLines_plain (s : Str) (h : ¬ HasColorSeq s) :
    (noColorNoLines s).length = s.length ∧
    (∀ i : Nat, s[i]? = some 10 → (noColorNoLines s)[i]? = some 45) ∧
    (∀ (i : Nat) (b : Nat), s[i]? = some b → b ≠ 10 → (noColorNoLines s)[i]? = some b) ∧
    (∀ i : Nat, (noColorNoLines s)[i]? = some 45 ↔ (s[i]? = some 10 ∨ s[i]? = some 45)) ∧
    (10 ∉ s → noColorNoLines s = s) := by
  rw [noColorNoLines_eq_map s h]
  refine ⟨by simp, ?_, ?_, ?_, ?_⟩
  · intro i hi
    simp [List.getElem?_map, hi]
  · intro i b hi hb
    simp [List.getElem?_map, hi, hb]
  · intro i
    constructor
    · intro hi
      rw [List.getElem?_map] at hi
      obtain ⟨b, hb, hb2⟩ := Option.map_eq_some'.1 hi
      by_cases h10 : b = 10
      · left; rw [hb, h10]
      · right; rw [hb]; simpa [h10] using hb2
    · intro hi
      rcases hi with hi | hi <;> simp [List.getElem?_map, hi]
  · intro hn
    conv_rhs => rw [← List.map_id s]
    apply List.map_congr_left
    intro b hb
    have : b ≠ 10 := fun e => hn (e ▸ hb)
    simp [this]

/-- Witness of C5 on the bytes of `a`, newline, a stray ESC, `[x-b`: the newline
becomes a hyphen, the hyphen and the other bytes stay. -/
theorem noColorNoLines_plain_witness :
    ¬ HasColorSeq [97, 10, 27, 91, 120, 45, 98] ∧
    noColorNoLines [97, 10, 27, 91, 120, 45, 98] = [97, 45, 27, 91, 120, 45, 98] ∧
    (noColorNoLines [97, 10, 27, 91, 120, 45, 98]).length = 7 :=
  ⟨fun hc => absurd ((hasColorSeq_iff _).1 hc) (by decide), by decide,
    (noColorNoLines_plain [97, 10, 27, 91, 120, 45, 98]
      (fun hc => absurd ((hasColorSeq_iff _).1 hc) (by decide))).1⟩

/-- C6, as stated, fails: on the bytes ESC, ESC, `[m[m` the only match is the
sequence that starts at the second ESC, and its removal leaves ESC, `[m`, which is
a colour sequence. -/
theorem noColorNoLines_leaves_sequence :
    noColorNoLines [27, 27, 91, 109, 91, 109] = [27, 91, 109] ∧
    HasColorSeq (noColorNoLines [27, 27, 91, 109, 91, 109]) :=
  ⟨by decide, (hasColorSeq_iff _).2 (by decide)⟩

/-- C6, amended: for every input string in which each ESC byte (27) begins an ANSI
colour sequence, the result of `noColorNoLines` holds no ESC byte and so no colour
sequence. -/
theorem noColorNoLines_no_escape (s : Str) (h : EscStartsSeq s) :
    27 ∉ noColorNoLines s ∧ ¬ HasColorSeq (noColorNoLines s) :=
  ⟨noColorNoLines_no_esc s h, fun hc => noColorNoLines_no_esc s h (hasColorSeq_mem_esc _ hc)⟩

/-- Witness of C6 on ESC `[31m`, `red`, ESC `[0m`, newline, `ok`. -/
theorem noColorNoLines_no_escape_witness :
    EscStartsSeq [27, 91, 51, 49, 109, 114, 101, 100, 27, 91, 48, 109, 10, 111, 107] ∧
    noColorNoLines [27, 91, 51, 49, 109, 114, 101, 100, 27, 91, 48, 109, 10, 111, 107] =
      [114, 101, 100, 45, 111, 107] ∧
    ¬ HasColorSeq
      (noColorNoLines [27, 91, 51, 49, 109, 114, 101, 100, 27, 91, 48, 109, 10, 111, 107]) :=
  ⟨escStartsSeq_of_check _ (by decide), by decide,
    (noColorNoLines_no_escape _ (escStartsSeq_of_check _ (by decide))).2⟩

/-- C7: in hierarchical JSON mode, appending a row of exactly two cells `[k, v]`, or
a three-cell row `[k, v, v]` whose second and third cells are equal, succeeds, sets
`Data[toSnakeCase k]` to the plain string `noColorNoLines v` and leaves every other
key of `Data` as it was; on a fresh table `["VM ID", "subnet-evm", "subnet-evm"]`
gives `{"vm_id": "subnet-evm"}` and `["Name", "octavia"]` gives
`{"name": "octavia"}`. -/
theorem AppendRow_flat (jt : CustomTable) (k v : Str) (row : Row) (cfg : List RowConfig)
    (hjson : jt.AsJson = some true) (hmode : jt.isArray = false)
    (hrow : row = [k, v] ∨ row = [k, v, v]) :
    (∃ jt', AppendRow jt row cfg = .ok jt' ∧
      jt'.Data.lookup (toSnakeCase k) = some (Entry.text (noColorNoLines v)) ∧
      ∀ k2, k2 ≠ toSnakeCase k → jt'.Data.lookup k2 = jt.Data.lookup k2) ∧
    (∃ jt', (freshJsonTable (ascii "Blockchain") >>= fun t =>
        AppendRow t [ascii "VM ID", ascii "subnet-evm", ascii "subnet-evm"] cfg) = .ok jt' ∧
      jt'.Data = ⟨[(ascii "vm_id", Entry.text (ascii "subnet-evm"))]⟩) ∧
    (∃ jt', (freshJsonTable (ascii "Blockchain") >>= fun t =>
        AppendRow t [ascii "Name", ascii "octavia"] cfg) = .ok jt' ∧
      jt'.Data = ⟨[(ascii "name", Entry.text (ascii "octavia"))]⟩) := by
  refine ⟨⟨appendToHierarchy jt row, AppendRow_hierarchy jt row cfg hjson hmode, ?_⟩,
    ⟨_, rfl, by decide⟩, ⟨_, rfl, by decide⟩⟩
  have hdata : (appendToHierarchy jt row).Data =
      jt.Data.assign (toSnakeCase k) (Entry.text (noColorNoLines v)) := by
    rcases hrow with rfl | rfl
    · exact appendToHierarchy_two jt k v
    · exact appendToHierarchy_merged jt k v
  rw [hdata]
  exact ⟨GoMap.lookup_assign_self _ _ _, fun k2 hk2 => GoMap.lookup_assign_ne _ _ _ _ hk2⟩

/-- Witness of C7 on the row `["Name", "octavia"]` and the empty table. -/
theorem AppendRow_flat_witness :
    (emptyJsonTable (ascii "T")).AsJson = some true ∧
    (emptyJsonTable (ascii "T")).isArray = false ∧
    ∃ jt', AppendRow (emptyJsonTable (ascii "T")) [ascii "Name", ascii "octavia"] [] = .ok jt' ∧
      jt'.Data.lookup (toSnakeCase (ascii "Name")) =
        some (Entry.text (noColorNoLines (ascii "octavia"))) ∧
      ∀ k2, k2 ≠ toSnakeCase (ascii "Name") →
        jt'.Data.lookup k2 = (emptyJsonTable (ascii "T")).Data.lookup k2 :=
  ⟨rfl, rfl, (AppendRow_flat (emptyJsonTable (ascii "T")) (ascii "Name") (ascii "octavia")
    [ascii "Name", ascii "octavia"] [] rfl rfl (Or.inl rfl)).1⟩

/-- C8, as stated, fails: after the flat row `["k", "v"]`, the row `["k", "a", "b"]`
finds a string under `k`; the append succeeds, `Data["k"]` is still the string `v`
and there is no nested entry. -/
theorem AppendRow_nested_over_string :
    (freshJsonTable (ascii "T") >>= fun t => AppendRow t [ascii "k", ascii "v"] [] >>= fun t =>
      AppendRow t [ascii "k", ascii "a", ascii "b"] []).map
        (fun t => (t.AsJson, t.isArray, t.Data.lookup (toSnakeCase (ascii "k")),
          subLookup t.Data (toSnakeCase (ascii "k")) (toSnakeCase (ascii "a")))) =
      .ok (some true, false, some (Entry.text (ascii "v")), none) :=
  rfl

/-- C8, amended: in hierarchical JSON mode, appending a three-cell row `[k, a, b]`
whose second and third cells differ succeeds and leaves every other key of `Data`
as it was; when `Data[toSnakeCase k]` is absent or holds a nested mapping, it
becomes a nested mapping that has the entry `toSnakeCase a -> noColorNoLines b`;
when it holds a plain string, the row is dropped and `Data` is unchanged. -/
theorem AppendRow_nested (jt : CustomTable) (k a b : Str) (cfg : List RowConfig)
    (hjson : jt.AsJson = some true) (hmode : jt.isArray = false) (hab : a ≠ b) :
    ∃ jt', AppendRow jt [k, a, b] cfg = .ok jt' ∧
      (∀ k2, k2 ≠ toSnakeCase k → jt'.Data.lookup k2 = jt.Data.lookup k2) ∧
      ((∀ s, jt.Data.lookup (toSnakeCase k) ≠ some (Entry.text s)) →
        ∃ m, jt'.Data.lookup (toSnakeCase k) = some (Entry.nested m) ∧
          m.lookup (toSnakeCase a) = some (noColorNoLines b)) ∧
      (∀ s, jt.Data.lookup (toSnakeCase k) = some (Entry.text s) → jt'.Data = jt.Data) := by
  refine ⟨appendToHierarchy jt [k, a, b], AppendRow_hierarchy jt _ cfg hjson hmode, ?_⟩
  cases hl : jt.Data.lookup (toSnakeCase k) with
  | none =>
    rw [appendToHierarchy_absent jt k a b hab hl]
    refine ⟨fun k2 hk2 => ?_, fun _ => ⟨_, GoMap.lookup_assign_self _ _ _,
      GoMap.lookup_assign_self _ _ _⟩, fun s hs => by simp at hs⟩
    rw [GoMap.lookup_assign_ne _ _ _ _ hk2, GoMap.lookup_assign_ne _ _ _ _ hk2]
  | some e =>
    cases e with
    | text s =>
      rw [appendToHierarchy_text jt k a b hab s hl]
      exact ⟨fun _ _ => rfl, fun hno => absurd rfl (hno s), fun _ _ => rfl⟩
    | nested m =>
      rw [appendToHierarchy_nested jt k a b hab m hl]
      exact ⟨fun k2 hk2 => GoMap.lookup_assign_ne _ _ _ _ hk2,
        fun _ => ⟨_, GoMap.lookup_assign_self _ _ _, GoMap.lookup_assign_self _ _ _⟩,
        fun s hs => by simp at hs⟩

/-- Witness of C8 on the row `["local1", "ChainID", "9999"]` and the empty table. -/
theorem AppendRow_nested_witness :
    (emptyJsonTable (ascii "T")).AsJson = some true ∧
    (emptyJsonTable (ascii "T")).isArray = false ∧ ascii "ChainID" ≠ ascii "9999" ∧
    ∃ jt', AppendRow (emptyJsonTable (ascii "T"))
        [ascii "local1", ascii "ChainID", ascii "9999"] [] = .ok jt' ∧
      (∀ k2, k2 ≠ toSnakeCase (ascii "local1") →
        jt'.Data.lookup k2 = (emptyJsonTable (ascii "T")).Data.lookup k2) ∧
      ((∀ s, (emptyJsonTable (ascii "T")).Data.lookup (toSnakeCase (ascii "local1")) ≠
          some (Entry.text s)) →
        ∃ m, jt'.Data.lookup (toSnakeCase (ascii "local1")) = some (Entry.nested m) ∧
          m.lookup (toSnakeCase (ascii "ChainID")) = some (noColorNoLines (ascii "9999"))) ∧
      (∀ s, (emptyJsonTable (ascii "T")).Data.lookup (toSnakeCase (ascii "local1")) =
          some (Entry.text s) → jt'.Data = (emptyJsonTable (ascii "T")).Data) :=
  ⟨rfl, rfl, by decide, AppendRow_nested (emptyJsonTable (ascii "T")) (ascii "local1")
    (ascii "ChainID") (ascii "9999") [] rfl rfl (by decide)⟩

/-- C9: in hierarchical JSON mode, when `Data[toSnakeCase k]` already holds a nested
mapping `m`, appending `[k, a, b]` with `a` different from `b` succeeds and puts
under that key the mapping `m` with `toSnakeCase a` set to `noColorNoLines b`: that
sub-key now has this value, every other sub-key of `m` keeps its value and every
other key of `Data` is unchanged. -/
theorem AppendRow_nested_accumulates (jt : CustomTable) (k a b : Str) (m : GoMap Str)
    (cfg : List RowConfig) (hjson : jt.AsJson = some true) (hmode : jt.isArray = false)
    (hab : a ≠ b) (hm : jt.Data.lookup (toSnakeCase k) = some (Entry.nested m)) :
    ∃ jt' m', AppendRow jt [k, a, b] cfg = .ok jt' ∧
      jt'.Data.lookup (toSnakeCase k) = some (Entry.nested m') ∧
      m' = m.assign (toSnakeCase a) (noColorNoLines b) ∧
      m'.lookup (toSnakeCase a) = some (noColorNoLines b) ∧
      (∀ sub, sub ≠ toSnakeCase a → m'.lookup sub = m.lookup sub) ∧
      (∀ k2, k2 ≠ toSnakeCase k → jt'.Data.lookup k2 = jt.Data.lookup k2) := by
  refine ⟨appendToHierarchy jt [k, a, b], m.assign (toSnakeCase a) (noColorNoLines b),
    AppendRow_hierarchy jt _ cfg hjson hmode, ?_, rfl, GoMap.lookup_assign_self _ _ _,
    fun sub hsub => GoMap.lookup_assign_ne _ _ _ _ hsub, ?_⟩
  · rw [appendToHierarchy_nested jt k a b hab m hm]
    exact GoMap.lookup_assign_self _ _ _
  · intro k2 hk2
    rw [appendToHierarchy_nested jt k a b hab m hm]
    exact GoMap.lookup_assign_ne _ _ _ _ hk2

/-- Witness of C9 on a table whose `Data` is `{"local1": {"chainid": "9999"}}` and the
row `["local1", "SubnetID", "abc"]`. -/
theorem AppendRow_nested_accumulates_witness :
    ∃ jt' m', AppendRow
        { emptyJsonTable (ascii "T") with
          Data := ⟨[(ascii "local1", Entry.nested ⟨[(ascii "chainid", ascii "9999")]⟩)]⟩ }
        [ascii "local1", ascii "SubnetID", ascii "abc"] [] = .ok jt' ∧
      jt'.Data.lookup (toSnakeCase (ascii "local1")) = some (Entry.nested m') ∧
      m' = GoMap.assign ⟨[(ascii "chainid", ascii "9999")]⟩ (toSnakeCase (ascii "SubnetID"))
        (noColorNoLines (ascii "abc")) ∧
      m'.lookup (toSnakeCase (ascii "SubnetID")) = some (noColorNoLines (ascii "abc")) ∧
      (∀ sub, sub ≠ toSnakeCase (ascii "SubnetID") →
        m'.lookup sub = GoMap.lookup ⟨[(ascii "chainid", ascii "9999")]⟩ sub) ∧
      (∀ k2, k2 ≠ toSnakeCase (ascii "local1") → jt'.Data.lookup k2 =
        GoMap.lookup ⟨[(ascii "local1", Entry.nested ⟨[(ascii "chainid", ascii "9999")]⟩)]⟩
          k2) :=
  AppendRow_nested_accumulates
    { emptyJsonTable (ascii "T") with
      Data := ⟨[(ascii "local1", Entry.nested ⟨[(ascii "chainid", ascii "9999")]⟩)]⟩ }
    (ascii "local1") (ascii "SubnetID") (ascii "abc") ⟨[(ascii "chainid", ascii "9999")]⟩ []
    rfl rfl (by decide) (by decide)

/-- C10, as stated, fails: after `["local1", "ChainID", "9999"]` and
`["local1", "SubnetID", "abc"]` on a fresh table, `Data` is not
`{"local1": {"chain_id": "9999", "subnet_id": "abc"}}`; the nested mapping has
neither the sub-key `chain_id` nor the sub-key `subnet_id`. -/
theorem nested_rows_have_no_chain_id :
    (freshJsonTable (ascii "T") >>= fun t =>
      AppendRow t [ascii "local1", ascii "ChainID", ascii "9999"] [] >>= fun t =>
      AppendRow t [ascii "local1", ascii "SubnetID", ascii "abc"] []).map
        (fun t => (decide (t.Data = ⟨[(ascii "local1", Entry.nested
            ⟨[(ascii "chain_id", ascii "9999"), (ascii "subnet_id", ascii "abc")]⟩)]⟩),
          subLookup t.Data (ascii "local1") (ascii "chain_id"),
          subLookup t.Data (ascii "local1") (ascii "subnet_id"))) =
      .ok (false, none, none) :=
  rfl

/-- C10, amended: starting from a fresh hierarchical table in JSON mode, appending
`["local1", "ChainID", "9999"]` and then `["local1", "SubnetID", "abc"]` yields
`Data = {"local1": {"chainid": "9999", "subnetid": "abc"}}`: a label without a
separator between its words is lower-cased as one word. -/
theorem nested_rows_data (name : Str) (cfg1 cfg2 : List RowConfig) :
    ∃ jt', (freshJsonTable name >>= fun t =>
        AppendRow t [ascii "local1", ascii "ChainID", ascii "9999"] cfg1 >>= fun t =>
        AppendRow t [ascii "local1", ascii "SubnetID", ascii "abc"] cfg2) = .ok jt' ∧
      jt'.Data = ⟨[(ascii "local1", Entry.nested
        ⟨[(ascii "chainid", ascii "9999"), (ascii "subnetid", ascii "abc")]⟩)]⟩ ∧
      toSnakeCase (ascii "ChainID") = ascii "chainid" ∧
      toSnakeCase (ascii "SubnetID") = ascii "subnetid" :=
  ⟨_, rfl, rfl, by decide, by decide⟩

/-! ## Rows of an array table -/

theorem assignEntries_key_mem {β : Type} (l : List (Str × β)) (k k2 : Str) (v : β)
    (hne : k2 ≠ k) (h : k2 ∈ (assignEntries l k v).map Prod.fst) : k2 ∈ l.map Prod.fst := by
  induction l with
  | nil =>
    simp [assignEntries] at h
    exact absurd h hne
  | cons e rest ih =>
    obtain ⟨k3, v3⟩ := e
    by_cases h3 : k3 = k
    · subst h3
      simp only [assignEntries, if_true, List.map_cons, List.mem_cons] at h
      rcases h with h | h
      · exact absurd h hne
      · simp only [List.map_cons, List.mem_cons]
        exact Or.inr h
    · simp only [assignEntries, h3, if_false, List.map_cons, List.mem_cons] at h
      simp only [List.map_cons, List.mem_cons]
      rcases h with h | h
      · exact Or.inl h
      · exact Or.inr (ih h)

theorem assignEntries_keys_nodup {β : Type} (l : List (Str × β)) (k : Str) (v : β)
    (h : (l.map Prod.fst).Nodup) : ((assignEntries l k v).map Prod.fst).Nodup := by
  induction l with
  | nil => simp [assignEntries]
  | cons e rest ih =>
    obtain ⟨k3, v3⟩ := e
    simp only [List.map_cons, List.nodup_cons] at h
    by_cases hk : k3 = k
    · subst hk
      simpa [assignEntries] using h
    · simp only [assignEntries, hk, if_false, List.map_cons, List.nodup_cons]
      exact ⟨fun hmem => h.1 (assignEntries_key_mem rest k k3 v hk hmem), ih h.2⟩

theorem fillRowData_keys_nodup (hs : List Str) (row : Row) (i : Nat) (m : GoMap Str)
    (h : (m.entries.map Prod.fst).Nodup) :
    ((fillRowData hs row i m).entries.map Prod.fst).Nodup := by
  induction row generalizing i m with
  | nil => exact h
  | cons c cs ih =>
    unfold fillRowData
    cases hs.get? i with
    | none => exact ih _ _ h
    | some k => exact ih _ _ (assignEntries_keys_nodup _ _ _ h)

/-- What a key holds after the loop of `appendToArray`: the cell of the last column of
the row that has this key, or what it held before when no column of the row has
it. -/
theorem fillRowData_lookup (hs : List Str) (row : Row) (i : Nat) (m : GoMap Str) (k : Str) :
    ((∀ j, j < row.length → hs.get? (i + j) ≠ some k) →
      (fillRowData hs row i m).lookup k = m.lookup k) ∧
    (∀ j c, row.get? j = some c → hs.get? (i + j) = some k →
      (∀ j2, j < j2 → j2 < row.length → hs.get? (i + j2) ≠ some k) →
      (fillRowData hs row i m).lookup k = some (noColorNoLines c)) := by
  induction row generalizing i m with
  | nil =>
    refine ⟨fun _ => rfl, fun j c hj => ?_⟩
    simp at hj
  | cons c0 cs ih =>
    have shift : ∀ j, hs.get? (i + 1 + j) = hs.get? (i + (j + 1)) := by
      intro j; congr 1; omega
    constructor
    · intro hno
      have h0 := hno 0 (by simp)
      have hrest : ∀ j, j < cs.length → hs.get? (i + 1 + j) ≠ some k := by
        intro j hj; rw [shift]; exact hno (j + 1) (by simpa using hj)
      unfold fillRowData
      cases hget : hs.get? i with
      | none => exact (ih (i + 1) m).1 hrest
      | some k0 =>
        rw [(ih (i + 1) _).1 hrest]
        apply GoMap.lookup_assign_ne
        intro hk; apply h0; rw [Nat.add_zero, hget, hk]
    · intro j c hj hkey hlast
      cases j with
      | zero =>
        simp only [List.get?_cons_zero, Option.some.injEq] at hj
        subst hj
        have hrest : ∀ j, j < cs.length → hs.get? (i + 1 + j) ≠ some k := by
          intro j hj; rw [shift]; exact hlast (j + 1) (by omega) (by simpa using hj)
        unfold fillRowData
        rw [Nat.add_zero] at hkey
        rw [hkey]
        show (fillRowData hs cs (i + 1) _).lookup k = _
        rw [(ih (i + 1) _).1 hrest]
        exact GoMap.lookup_assign_self _ _ _
      | succ j =>
        simp only [List.get?_cons_succ] at hj
        have hkey2 : hs.get? (i + 1 + j) = some k := by rw [shift]; exact hkey
        have hlast2 : ∀ j2, j < j2 → j2 < cs.length → hs.get? (i + 1 + j2) ≠ some k := by
          intro j2 h1 h2; rw [shift]; exact hlast (j2 + 1) (by omega) (by simpa using h2)
        unfold fillRowData
        cases hs.get? i with
        | none => exact (ih (i + 1) m).2 j c hj hkey2 hlast2
        | some k0 => exact (ih (i + 1) _).2 j c hj hkey2 hlast2

theorem lookupEntries_some_mem {β : Type} (l : List (Str × β)) (k : Str) (v : β)
    (h : lookupEntries l k = some v) : k ∈ l.map Prod.fst := by
  induction l with
  | nil => simp [lookupEntries] at h
  | cons e rest ih =>
    obtain ⟨k3, v3⟩ := e
    by_cases h3 : k3 = k
    · simp [h3]
    · simp only [lookupEntries, h3, if_false] at h
      simp only [List.map_cons, List.mem_cons]
      exact Or.inr (ih h)

theorem rowRecord_keys_nodup (hs : List Str) (row : Row) :
    ((rowRecord hs row).entries.map Prod.fst).Nodup :=
  fillRowData_keys_nodup hs row 0 GoMap.empty (by simp [GoMap.empty])

/-- The field of a record under a key is the cell of the last column of the row that
has the key. -/
theorem rowRecord_lookup (hs : List Str) (row : Row) (k : Str) (j : Nat) (c : Str)
    (hj : row[j]? = some c) (hk : hs[j]? = some k)
    (hlast : ∀ j2, j < j2 → j2 < row.length → hs[j2]? ≠ some k) :
    (rowRecord hs row).lookup k = some (noColorNoLines c) := by
  apply (fillRowData_lookup hs row 0 GoMap.empty k).2 j c
  · rw [List.get?_eq_getElem?]; exact hj
  · rw [List.get?_eq_getElem?, Nat.zero_add]; exact hk
  · intro j2 h1 h2
    rw [List.get?_eq_getElem?, Nat.zero_add]; exact hlast j2 h1 h2

theorem AppendRow_array (jt : CustomTable) (row : Row) (cfg : List RowConfig)
    (hjson : jt.AsJson = some true) (harr : jt.isArray = true) :
    AppendRow jt row cfg = appendToArray jt row := by
  simp [AppendRow, hjson, harr]

theorem appendToArray_ok (jt : CustomTable) (row : Row) (hne : jt.Headers.length ≠ 0)
    (hfit : row.length ≤ jt.Headers.length) :
    appendToArray jt row =
      .ok { jt with ArrayData := jt.ArrayData ++ [rowRecord jt.Headers row] } := by
  simp [appendToArray, hne, Nat.not_lt.2 hfit, rowRecord]

theorem appendRows_cons_ok (jt t : CustomTable) (r : Row) (rs : List Row)
    (h : AppendRow jt r [] = .ok t) : appendRows jt (r :: rs) = appendRows t rs := by
  simp [appendRows, h]

theorem appendRows_cons_error (jt : CustomTable) (r : Row) (rs : List Row) (e : String)
    (h : AppendRow jt r [] = .error e) : appendRows jt (r :: rs) = .error e := by
  simp [appendRows, h]

theorem appendRows_array (rows : List Row) :
    ∀ jt : CustomTable, jt.AsJson = some true → jt.isArray = true →
      jt.Headers.length ≠ 0 → (∀ r ∈ rows, r.length ≤ jt.Headers.length) →
      appendRows jt rows =
        .ok { jt with ArrayData := jt.ArrayData ++ rows.map (rowRecord jt.Headers) } := by
  induction rows with
  | nil => intro jt _ _ _ _; simp [appendRows]
  | cons r rs ih =>
    intro jt hjson harr hne hfit
    have h1 := appendToArray_ok jt r hne (hfit r (List.mem_cons_self _ _))
    rw [← AppendRow_array jt r [] hjson harr] at h1
    rw [appendRows_cons_ok jt _ r rs h1]
    refine (ih { jt with ArrayData := jt.ArrayData ++ [rowRecord jt.Headers r] } hjson harr hne
      (fun r2 h2 => hfit r2 (List.mem_cons_of_mem _ h2))).trans ?_
    simp

theorem NewCustomTable_header (T : CustomTable) (name : Str) (H : Row)
    (hjson : T.AsJson = some true) :
    NewCustomTable (some T) name (some H) =
      .ok { T with Name := name, Data := GoMap.empty, ArrayData := [], isArray := true,
                   headerAdded := true, Writer := NewWriter,
                   Headers := H.map toSnakeCase } := by
  simp [NewCustomTable, AppendHeader, hjson]

/-- C11, as stated, fails for a header without columns: after a reset with the
non-nil empty header, whose keys are trivially distinct, appending the empty row,
which has no more cells than the header, fails and leaves no record. -/
theorem empty_header_row_fails :
    (match NewCustomTable (some (emptyJsonTable (ascii "T"))) (ascii "Nodes") (some []) with
      | Except.error e => Except.error e
      | Except.ok t => appendRows t [[]]) =
      Except.error "Headers must be set before appending rows." :=
  rfl

/-- C11, amended: in JSON mode, after a reset with a header `H` that has at least one
column and whose normalized keys are pairwise distinct, appending rows `r1..rn`, each
with at most `len(H)` cells, succeeds and leaves `ArrayData` with exactly `n` records
in append order, the `i`-th record mapping `toSnakeCase(H[j])` to
`noColorNoLines(ri[j])` for every cell index `j` of `ri`; after the first `k` appends
`ArrayData` holds the first `k` of these records.  Header `["Name", "Node ID"]` with
rows `["node1", "NodeID-1"]`, `["node2", "NodeID-2"]` gives
`[{name: node1, node_id: NodeID-1}, {name: node2, node_id: NodeID-2}]`. -/
theorem array_rows_records (T : CustomTable) (name : Str) (H : Row) (rows : List Row)
    (hjson : T.AsJson = some true) (hne : H ≠ [])
    (hkeys : (H.map toSnakeCase).Nodup) (hfit : ∀ r ∈ rows, r.length ≤ H.length) :
    (∃ t1 t2, NewCustomTable (some T) name (some H) = .ok t1 ∧
      appendRows t1 rows = .ok t2 ∧
      t2.ArrayData.length = rows.length ∧
      (∀ (i : Nat) (r : Row), rows[i]? = some r →
        ∃ record, t2.ArrayData[i]? = some record ∧
          ∀ (j : Nat) (c h : Str), r[j]? = some c → H[j]? = some h →
            record.lookup (toSnakeCase h) = some (noColorNoLines c)) ∧
      (∀ k, ∃ tk, appendRows t1 (rows.take k) = .ok tk ∧
        tk.ArrayData = t2.ArrayData.take k)) ∧
    (∃ t1 t2, NewCustomTable (some (emptyJsonTable (ascii "T"))) (ascii "Nodes")
        (some [ascii "Name", ascii "Node ID"]) = .ok t1 ∧
      appendRows t1 [[ascii "node1", ascii "NodeID-1"], [ascii "node2", ascii "NodeID-2"]] =
        .ok t2 ∧
      t2.ArrayData =
        [⟨[(ascii "name", ascii "node1"), (ascii "node_id", ascii "NodeID-1")]⟩,
         ⟨[(ascii "name", ascii "node2"), (ascii "node_id", ascii "NodeID-2")]⟩]) := by
  refine ⟨?_, ⟨_, _, rfl, rfl, by decide⟩⟩
  have hlen : (H.map toSnakeCase).length ≠ 0 := by
    cases H with
    | nil => exact absurd rfl hne
    | cons a b => simp
  have hfit2 : ∀ r ∈ rows, r.length ≤ (H.map toSnakeCase).length := by
    intro r hr; simpa using hfit r hr
  refine ⟨_, _, NewCustomTable_header T name H hjson,
    appendRows_array rows _ hjson rfl hlen hfit2, by simp, ?_, ?_⟩
  · intro i r hr
    refine ⟨rowRecord (H.map toSnakeCase) r, by simp [hr], ?_⟩
    intro j c h hc hh
    apply rowRecord_lookup _ r _ j c hc (by simp [hh])
    intro j2 hlt hj2 heq
    have hj2H : j2 < (H.map toSnakeCase).length := by
      have := hfit2 r (List.getElem?_mem hr); omega
    have hjH : j < (H.map toSnakeCase).length := by omega
    have e1 : (H.map toSnakeCase)[j]? = some (toSnakeCase h) := by simp [hh]
    rw [List.getElem?_eq_getElem hj2H] at heq
    rw [List.getElem?_eq_getElem hjH] at e1
    have := (List.Nodup.getElem_inj_iff hkeys).1
      ((Option.some.inj heq).trans (Option.some.inj e1).symm)
    omega
  · intro k
    refine ⟨_, appendRows_array (rows.take k) _ hjson rfl hlen
      (fun r hr => hfit2 r (List.mem_of_mem_take hr)), ?_⟩
    simp [List.map_take]

/-- Witness of C11 on the header `["Name", "Node ID"]` and two rows. -/
theorem array_rows_records_witness :
    ∃ t1 t2, NewCustomTable (some (emptyJsonTable (ascii "T"))) (ascii "Nodes")
        (some [ascii "Name", ascii "Node ID"]) = .ok t1 ∧
      appendRows t1 [[ascii "node1", ascii "NodeID-1"], [ascii "node2", ascii "NodeID-2"]] =
        .ok t2 ∧
      t2.ArrayData.length = 2 := by
  obtain ⟨t1, t2, h1, h2, h3, _⟩ :=
    (array_rows_records (emptyJsonTable (ascii "T")) (ascii "Nodes")
      [ascii "Name", ascii "Node ID"]
      [[ascii "node1", ascii "NodeID-1"], [ascii "node2", ascii "NodeID-2"]]
      rfl (by decide) (by decide) (by decide)).1
  exact ⟨t1, t2, h1, h2, h3⟩

/-- C12: in JSON array mode `AppendRow` fails if and only if no header keys are set or
the row has more cells than there are header keys; a failing call yields no table, so
no record is added and the row is neither truncated nor padded; every other call
succeeds and adds exactly one record at the end of `ArrayData`. -/
theorem AppendRow_array_fails_iff (jt : CustomTable) (row : Row) (cfg : List RowConfig)
    (hjson : jt.AsJson = some true) (harr : jt.isArray = true) :
    ((∃ e, AppendRow jt row cfg = Except.error e) ↔
      (jt.Headers.length = 0 ∨ jt.Headers.length < row.length)) ∧
    ((jt.Headers.length = 0 ∨ jt.Headers.length < row.length) →
      ∀ jt2, AppendRow jt row cfg ≠ Except.ok jt2) ∧
    (¬ (jt.Headers.length = 0 ∨ jt.Headers.length < row.length) →
      ∃ jt2 record, AppendRow jt row cfg = Except.ok jt2 ∧
        jt2.ArrayData = jt.ArrayData ++ [record] ∧
        jt2.ArrayData.length = jt.ArrayData.length + 1 ∧
        jt2.Headers = jt.Headers ∧ jt2.Data = jt.Data ∧ jt2.AllData = jt.AllData) := by
  rw [AppendRow_array jt row cfg hjson harr]
  by_cases h0 : jt.Headers.length = 0
  · have he : appendToArray jt row =
        Except.error "Headers must be set before appending rows." := by
      simp [appendToArray, h0]
    rw [he]
    exact ⟨⟨fun _ => Or.inl h0, fun _ => ⟨_, rfl⟩⟩, fun _ jt2 h => Except.noConfusion h,
      fun hn => absurd (Or.inl h0) hn⟩
  · by_cases h1 : jt.Headers.length < row.length
    · have he : appendToArray jt row = Except.error "Row length exceeds header count." := by
        simp [appendToArray, h0, h1]
      rw [he]
      exact ⟨⟨fun _ => Or.inr h1, fun _ => ⟨_, rfl⟩⟩, fun _ jt2 h => Except.noConfusion h,
        fun hn => absurd (Or.inr h1) hn⟩
    · rw [appendToArray_ok jt row h0 (Nat.not_lt.1 h1)]
      refine ⟨⟨fun ⟨e, he⟩ => Except.noConfusion he, fun h => ?_⟩, fun h => ?_, fun _ =>
        ⟨_, rowRecord jt.Headers row, rfl, rfl, by simp, rfl, rfl, rfl⟩⟩
      · rcases h with h | h
        · exact absurd h h0
        · exact absurd h h1
      · rcases h with h | h
        · exact absurd h h0
        · exact absurd h h1

/-- Witness of C12 on a table with the header keys `name`, `node_id` and a row of
three cells. -/
theorem AppendRow_array_fails_iff_witness :
    ∃ e, AppendRow
      { emptyJsonTable (ascii "T") with isArray := true,
                                         Headers := [ascii "name", ascii "node_id"] }
      [ascii "a", ascii "b", ascii "c"] [] = Except.error e :=
  (AppendRow_array_fails_iff
    { emptyJsonTable (ascii "T") with isArray := true,
                                       Headers := [ascii "name", ascii "node_id"] }
    [ascii "a", ascii "b", ascii "c"] [] rfl rfl).1.2 (Or.inr (by decide))

theorem filter_key_length_one {β : Type} (l : List (Str × β)) (k : Str)
    (hnd : (l.map Prod.fst).Nodup) (hmem : k ∈ l.map Prod.fst) :
    (l.filter (fun e => decide (e.1 = k))).length = 1 := by
  induction l with
  | nil => simp at hmem
  | cons e rest ih =>
    simp only [List.map_cons, List.nodup_cons] at hnd
    by_cases he : e.1 = k
    · have hnone : rest.filter (fun e => decide (e.1 = k)) = [] := by
        rw [List.filter_eq_nil_iff]
        intro x hx hxk
        apply hnd.1
        rw [he]
        have : x.1 = k := by simpa using hxk
        exact List.mem_map.2 ⟨x, hx, this⟩
      simp [List.filter, he, hnone]
    · have hmem2 : k ∈ rest.map Prod.fst := by
        simp only [List.map_cons, List.mem_cons] at hmem
        rcases hmem with h | h
        · exact absurd h.symm he
        · exact h
      simp [List.filter, he, ih hnd.2 hmem2]

/-- C13, as stated, fails: with the header labels `VM ID` and `VM (ID)`, which both
normalize to `vm_id`, the row `["a", "b"]` is appended without error and its record
has the single field `vm_id`, holding `b`. -/
theorem colliding_columns_one_field :
    ((match NewCustomTable (some (emptyJsonTable (ascii "T"))) (ascii "Nodes")
        (some [ascii "VM ID", ascii "VM (ID)"]) with
      | Except.error e => Except.error e
      | Except.ok t => AppendRow t [ascii "a", ascii "b"] []) :
        Except String CustomTable).map (fun t => (t.Headers, t.ArrayData)) =
      Except.ok ([ascii "vm_id", ascii "vm_id"], [⟨[(ascii "vm_id", ascii "b")]⟩]) :=
  rfl

/-- C13, amended: when two distinct header labels normalize to the same JSON key, a
row appended in JSON array mode, with cells for both columns, is accepted without
error and produces a record that has exactly one field with that key; it holds the
cell of the last column of the row with that key, the cell of an earlier one being
overwritten. -/
theorem colliding_columns_last_wins (T : CustomTable) (name : Str) (H : Row) (row : Row)
    (i j : Nat) (l1 l2 c : Str) (hjson : T.AsJson = some true)
    (_hi : H[i]? = some l1) (hj : H[j]? = some l2) (_hlabels : l1 ≠ l2)
    (hkey : toSnakeCase l1 = toSnakeCase l2) (hij : i < j) (hc : row[j]? = some c)
    (hfit : row.length ≤ H.length)
    (hlast : ∀ j2, j < j2 → j2 < row.length → (H.map toSnakeCase)[j2]? ≠ some (toSnakeCase l2)) :
    ∃ t1 t2 record, NewCustomTable (some T) name (some H) = .ok t1 ∧
      AppendRow t1 row [] = .ok t2 ∧
      t2.ArrayData = [record] ∧
      (record.entries.filter (fun e => decide (e.1 = toSnakeCase l1))).length = 1 ∧
      record.lookup (toSnakeCase l1) = some (noColorNoLines c) := by
  have hjlen : j < H.length := by
    rcases Nat.lt_or_ge j H.length with h | h
    · exact h
    · rw [List.getElem?_eq_none h] at hj; cases hj
  have hlen : (H.map toSnakeCase).length ≠ 0 := by rw [List.length_map]; omega
  have hfit2 : row.length ≤ (H.map toSnakeCase).length := by simpa using hfit
  have hlook : (rowRecord (H.map toSnakeCase) row).lookup (toSnakeCase l1) =
      some (noColorNoLines c) := by
    rw [hkey]
    exact rowRecord_lookup _ row _ j c hc (by simp [hj]) hlast
  obtain ⟨t1, h1, hA, hI, hH, hD⟩ : ∃ t1, NewCustomTable (some T) name (some H) = .ok t1 ∧
      t1.AsJson = some true ∧ t1.isArray = true ∧ t1.Headers = H.map toSnakeCase ∧
      t1.ArrayData = [] :=
    ⟨_, NewCustomTable_header T name H hjson, hjson, rfl, rfl, rfl⟩
  have h2 := appendToArray_ok t1 row (by rw [hH]; exact hlen) (by rw [hH]; exact hfit2)
  rw [← AppendRow_array t1 row [] hA hI, hH, hD] at h2
  exact ⟨t1, _, rowRecord (H.map toSnakeCase) row, h1, h2, rfl,
    filter_key_length_one _ _ (rowRecord_keys_nodup _ row)
      (lookupEntries_some_mem _ _ _ hlook), hlook⟩

/-- Witness of C13 on the labels `VM ID`, `VM (ID)` and the row `["a", "b"]`. -/
theorem colliding_columns_last_wins_witness :
    ∃ t1 t2 record, NewCustomTable (some (emptyJsonTable (ascii "T"))) (ascii "Nodes")
        (some [ascii "VM ID", ascii "VM (ID)"]) = .ok t1 ∧
      AppendRow t1 [ascii "a", ascii "b"] [] = .ok t2 ∧
      t2.ArrayData = [record] ∧
      (record.entries.filter (fun e => decide (e.1 = toSnakeCase (ascii "VM ID")))).length = 1 ∧
      record.lookup (toSnakeCase (ascii "VM ID")) = some (noColorNoLines (ascii "b")) :=
  colliding_columns_last_wins (emptyJsonTable (ascii "T")) (ascii "Nodes")
    [ascii "VM ID", ascii "VM (ID)"] [ascii "a", ascii "b"] 0 1 (ascii "VM ID")
    (ascii "VM (ID)") (ascii "b") rfl rfl rfl (by decide) (by decide) (by decide) rfl
    (by decide) (fun j2 h1 h2 => by simp at h2; omega)

/-! ## Reset, header and render -/

/-- C14, as stated, fails: a renderer created without a header has no JSON flag yet,
and a reset of it with a header fails in `AppendHeader` on the nil flag. -/
theorem reset_with_header_unbound_flag_fails :
    (match NewCustomTable none (ascii "A") none with
      | Except.error e => Except.error e
      | Except.ok t => NewCustomTable (some t) (ascii "B") (some [ascii "Name"])) =
      Except.error nilDereference :=
  rfl

/-- C14, amended: calling `NewCustomTable(name, header)` on an existing renderer, with
no header or with the JSON flag of the renderer bound, succeeds, sets `Name` to
`name`, sets array mode exactly when a header is supplied, leaves `Data` and
`ArrayData` empty and leaves `AllData` and the flag exactly as they were. -/
theorem NewCustomTable_reset (T : CustomTable) (name : Str) (headers : Option Row)
    (hflag : headers = none ∨ T.AsJson ≠ none) :
    ∃ t, NewCustomTable (some T) name headers = .ok t ∧
      t.Name = name ∧ t.isArray = headers.isSome ∧
      t.Data = GoMap.empty ∧ t.ArrayData = [] ∧
      t.AllData = T.AllData ∧ t.AsJson = T.AsJson := by
  cases headers with
  | none => exact ⟨_, rfl, rfl, rfl, rfl, rfl, rfl, rfl⟩
  | some H =>
    rcases hflag with h | h
    · cases h
    · cases hA : T.AsJson with
      | none => exact absurd hA h
      | some b =>
        cases b
        · have h1 : NewCustomTable (some T) name (some H) =
              .ok { T with Name := name, Data := GoMap.empty, ArrayData := [], isArray := true,
                           headerAdded := true,
                           Writer := { NewWriter with header := NewWriter.header ++ [H] } } := by
            simp [NewCustomTable, AppendHeader, hA]
          exact ⟨_, h1, rfl, rfl, rfl, rfl, rfl, hA⟩
        · exact ⟨_, NewCustomTable_header T name H hA, rfl, rfl, rfl, rfl, rfl, hA⟩

/-- Witness of C14: a reset with a header of a renderer that holds a committed table. -/
theorem NewCustomTable_reset_witness :
    ∃ t, NewCustomTable
        (some { emptyJsonTable (ascii "A") with
          Data := ⟨[(ascii "name", Entry.text (ascii "octavia"))]⟩,
          AllData := ⟨[(ascii "a",
            TableData.hierarchy ⟨[(ascii "name", Entry.text (ascii "octavia"))]⟩)]⟩ })
        (ascii "Nodes") (some [ascii "Name"]) = .ok t ∧
      t.Name = ascii "Nodes" ∧ t.isArray = true ∧
      t.Data = GoMap.empty ∧ t.ArrayData = [] ∧
      t.AllData = ⟨[(ascii "a",
        TableData.hierarchy ⟨[(ascii "name", Entry.text (ascii "octavia"))]⟩)]⟩ ∧
      t.AsJson = some true :=
  NewCustomTable_reset _ (ascii "Nodes") (some [ascii "Name"]) (Or.inr (by decide))

theorem AppendHeader_of_added (jt : CustomTable) (headers : Row)
    (h : jt.headerAdded = true) : AppendHeader jt headers = .ok jt := by
  simp [AppendHeader, h]

theorem AppendHeader_sets_added (jt t : CustomTable) (headers : Row)
    (h : AppendHeader jt headers = .ok t) : t.headerAdded = true := by
  unfold AppendHeader at h
  cases ha : jt.headerAdded with
  | true =>
    simp only [ha, if_true, Except.ok.injEq] at h
    rw [← h]; exact ha
  | false =>
    cases hA : jt.AsJson with
    | none => simp [ha, hA] at h
    | some b =>
      cases b
      · simp only [ha, hA, Bool.false_eq_true, if_false, Except.ok.injEq] at h
        rw [← h]
      · simp only [ha, hA, Bool.false_eq_true, if_false, Except.ok.injEq] at h
        rw [← h]

theorem NewCustomTable_sets_added (T : Option CustomTable) (name : Str) (H : Row)
    (t : CustomTable) (h : NewCustomTable T name (some H) = .ok t) : t.headerAdded = true := by
  unfold NewCustomTable at h
  exact AppendHeader_sets_added _ t H h

theorem appendHeaders_of_added (more : List Row) (jt : CustomTable)
    (h : jt.headerAdded = true) : appendHeaders jt more = .ok jt := by
  induction more with
  | nil => rfl
  | cons r rs ih => simp [appendHeaders, AppendHeader_of_added jt r h, ih]

/-- C15: once a header has been recorded for the current table, by a reset with a
header or by an earlier `AppendHeader`, every further `AppendHeader` call before the
next reset is a no-op: it succeeds and returns the table as it was, with `Headers`,
`Data`, `ArrayData` and `AllData` unchanged. -/
theorem header_recorded_once (T : Option CustomTable) (name : Str) (H : Row)
    (jt t1 t2 : CustomTable) (first : Row) (more : List Row)
    (hreset : NewCustomTable T name (some H) = .ok t1)
    (hfirst : AppendHeader jt first = .ok t2) :
    appendHeaders t1 more = .ok t1 ∧ appendHeaders t2 more = .ok t2 ∧
    (∀ headers t, AppendHeader t1 headers = .ok t →
      t.Headers = t1.Headers ∧ t.Data = t1.Data ∧ t.ArrayData = t1.ArrayData ∧
        t.AllData = t1.AllData) ∧
    (∀ headers t, AppendHeader t2 headers = .ok t →
      t.Headers = t2.Headers ∧ t.Data = t2.Data ∧ t.ArrayData = t2.ArrayData ∧
        t.AllData = t2.AllData) := by
  have a1 := NewCustomTable_sets_added T name H t1 hreset
  have a2 := AppendHeader_sets_added jt t2 first hfirst
  refine ⟨appendHeaders_of_added more t1 a1, appendHeaders_of_added more t2 a2, ?_, ?_⟩
  · intro headers t ht
    rw [AppendHeader_of_added t1 headers a1] at ht
    cases ht
    exact ⟨rfl, rfl, rfl, rfl⟩
  · intro headers t ht
    rw [AppendHeader_of_added t2 headers a2] at ht
    cases ht
    exact ⟨rfl, rfl, rfl, rfl⟩

/-- Witness of C15: a reset with the header `["Name", "Node ID"]`, and a first
`AppendHeader` on a table without header, each followed by two more calls. -/
theorem header_recorded_once_witness :
    appendHeaders
      { emptyJsonTable (ascii "Nodes") with isArray := true, headerAdded := true,
                                             Headers := [ascii "name", ascii "node_id"] }
      [[ascii "Other"], [ascii "Name", ascii "Node ID"]] =
      .ok { emptyJsonTable (ascii "Nodes") with isArray := true, headerAdded := true,
                                                 Headers := [ascii "name", ascii "node_id"] } :=
  (header_recorded_once (some (emptyJsonTable (ascii "T"))) (ascii "Nodes")
    [ascii "Name", ascii "Node ID"] (emptyJsonTable (ascii "T")) _ _ [ascii "Name"]
    [[ascii "Other"], [ascii "Name", ascii "Node ID"]] rfl rfl).1

theorem assignEntries_idem {β : Type} (l : List (Str × β)) (k : Str) (v : β) :
    assignEntries (assignEntries l k v) k v = assignEntries l k v := by
  induction l with
  | nil => simp [assignEntries]
  | cons e rest ih =>
    obtain ⟨k3, v3⟩ := e
    by_cases h3 : k3 = k
    · simp [assignEntries, h3]
    · simp [assignEntries, h3, ih]

/-- C16: in JSON mode `Render` succeeds and returns the empty string; it sets
`AllData[toSnakeCase(Name)]` to `ArrayData` in array mode and to `Data` in
hierarchical mode, leaves every other key of `AllData` unchanged, and leaves `Name`,
`Headers`, `Data` and `ArrayData` as they were, so that rendering again gives the
same aggregate. -/
theorem Render_json (renderText : Writer → Str) (jt : CustomTable)
    (hjson : jt.AsJson = some true) :
    ∃ jt2, Render renderText jt = .ok ([], jt2) ∧
      (jt.isArray = true →
        jt2.AllData.lookup (toSnakeCase jt.Name) = some (TableData.array jt.ArrayData)) ∧
      (jt.isArray = false →
        jt2.AllData.lookup (toSnakeCase jt.Name) = some (TableData.hierarchy jt.Data)) ∧
      (∀ k, k ≠ toSnakeCase jt.Name → jt2.AllData.lookup k = jt.AllData.lookup k) ∧
      jt2.Name = jt.Name ∧ jt2.Headers = jt.Headers ∧ jt2.Data = jt.Data ∧
      jt2.ArrayData = jt.ArrayData ∧
      Render renderText jt2 = .ok ([], jt2) := by
  cases harr : jt.isArray with
  | true =>
    refine ⟨{ jt with AllData :=
        jt.AllData.assign (toSnakeCase jt.Name) (TableData.array jt.ArrayData) },
      by simp [Render, hjson, harr], fun _ => GoMap.lookup_assign_self _ _ _, fun h => Bool.noConfusion h,
      fun k hk => GoMap.lookup_assign_ne _ _ _ _ hk, rfl, rfl, rfl, rfl, ?_⟩
    simp [Render, hjson, harr, GoMap.assign, assignEntries_idem]
  | false =>
    refine ⟨{ jt with AllData :=
        jt.AllData.assign (toSnakeCase jt.Name) (TableData.hierarchy jt.Data) },
      by simp [Render, hjson, harr], fun h => Bool.noConfusion h,
      fun _ => GoMap.lookup_assign_self _ _ _,
      fun k hk => GoMap.lookup_assign_ne _ _ _ _ hk, rfl, rfl, rfl, rfl, ?_⟩
    simp [Render, hjson, harr, GoMap.assign, assignEntries_idem]

/-- Witness of C16 on a hierarchical table named `Token` with one entry. -/
theorem Render_json_witness :
    ∃ jt2, Render (fun _ => [])
        { emptyJsonTable (ascii "Token") with
          Data := ⟨[(ascii "token_name", Entry.text (ascii "TEST"))]⟩ } = .ok ([], jt2) ∧
      jt2.AllData = ⟨[(ascii "token",
        TableData.hierarchy ⟨[(ascii "token_name", Entry.text (ascii "TEST"))]⟩)]⟩ := by
  obtain ⟨jt2, h1, _⟩ := Render_json (fun _ => [])
    { emptyJsonTable (ascii "Token") with
      Data := ⟨[(ascii "token_name", Entry.text (ascii "TEST"))]⟩ } rfl
  refine ⟨jt2, h1, ?_⟩
  have h2 : Render (fun _ => [])
      { emptyJsonTable (ascii "Token") with
        Data := ⟨[(ascii "token_name", Entry.text (ascii "TEST"))]⟩ } =
      .ok ([], { emptyJsonTable (ascii "Token") with
        Data := ⟨[(ascii "token_name", Entry.text (ascii "TEST"))]⟩,
        AllData := ⟨[(ascii "token",
          TableData.hierarchy ⟨[(ascii "token_name", Entry.text (ascii "TEST"))]⟩)]⟩ }) := rfl
  rw [h2] at h1
  cases h1
  rfl

/-! ## Several tables in one aggregate -/

theorem appendToHierarchy_eq (jt : CustomTable) (row : Row) :
    appendToHierarchy jt row = { jt with Data := hierarchyData jt.Data row } := by
  unfold hierarchyData
  match row with
  | [] => rfl
  | [_] => rfl
  | [_, _] => rfl
  | a :: b :: c :: rest =>
    by_cases hbc : b = c
    · simp [appendToHierarchy, hbc]
    · cases hl : jt.Data.lookup (toSnakeCase a) with
      | none => simp [appendToHierarchy, hbc, hl, GoMap.lookup_assign_self]
      | some e =>
        cases e with
        | text s => simp [appendToHierarchy, hbc, hl]
        | nested m => simp [appendToHierarchy, hbc, hl]

theorem AppendRow_same (t u : CustomTable) (row : Row) (cfg : List RowConfig)
    (h : SameBuffers t u) (t2 : CustomTable) (ht : AppendRow t row cfg = .ok t2) :
    ∃ u2, AppendRow u row cfg = .ok u2 ∧ SameBuffers t2 u2 ∧
      t2.AllData = t.AllData ∧ t2.Name = t.Name ∧
      u2.AllData = u.AllData ∧ u2.Name = u.Name := by
  obtain ⟨hA, hB, hI, hD, hR, hH⟩ := h
  cases harr : t.isArray with
  | false =>
    have harr2 : u.isArray = false := by rw [← hI, harr]
    rw [AppendRow_hierarchy t row cfg hA harr, appendToHierarchy_eq] at ht
    cases ht
    refine ⟨{ u with Data := hierarchyData u.Data row },
      by rw [AppendRow_hierarchy u row cfg hB harr2, appendToHierarchy_eq],
      ⟨hA, hB, hI, ?_, hR, hH⟩, rfl, rfl, rfl, rfl⟩
    show hierarchyData t.Data row = hierarchyData u.Data row
    rw [hD]
  | true =>
    have harr2 : u.isArray = true := by rw [← hI, harr]
    have hHe : t.Headers = u.Headers := hH harr
    rw [AppendRow_array t row cfg hA harr] at ht
    by_cases h0 : t.Headers.length = 0
    · simp [appendToArray, h0] at ht
    · by_cases h1 : t.Headers.length < row.length
      · simp [appendToArray, h0, h1] at ht
      · rw [appendToArray_ok t row h0 (Nat.not_lt.1 h1)] at ht
        cases ht
        refine ⟨{ u with ArrayData := u.ArrayData ++ [rowRecord u.Headers row] },
          by rw [AppendRow_array u row cfg hB harr2,
            appendToArray_ok u row (hHe ▸ h0) (hHe ▸ Nat.not_lt.1 h1)],
          ⟨hA, hB, hI, hD, ?_, hH⟩, rfl, rfl, rfl, rfl⟩
        show t.ArrayData ++ [rowRecord t.Headers row] = u.ArrayData ++ [rowRecord u.Headers row]
        rw [hR, hHe]

theorem appendRows_same (rows : List Row) :
    ∀ t u : CustomTable, SameBuffers t u → ∀ t2, appendRows t rows = .ok t2 →
      ∃ u2, appendRows u rows = .ok u2 ∧ SameBuffers t2 u2 ∧
        t2.AllData = t.AllData ∧ t2.Name = t.Name ∧
        u2.AllData = u.AllData ∧ u2.Name = u.Name := by
  induction rows with
  | nil =>
    intro t u h t2 ht
    simp only [appendRows, Except.ok.injEq] at ht
    subst ht
    exact ⟨u, rfl, h, rfl, rfl, rfl, rfl⟩
  | cons r rs ih =>
    intro t u h t2 ht
    cases h1 : AppendRow t r [] with
    | error e => rw [appendRows_cons_error t r rs e h1] at ht; cases ht
    | ok t1 =>
      rw [appendRows_cons_ok t t1 r rs h1] at ht
      obtain ⟨u1, hu1, hs1, a1, n1, a2, n2⟩ := AppendRow_same t u r [] h t1 h1
      obtain ⟨u2, hu2, hs2, b1, m1, b2, m2⟩ := ih t1 u1 hs1 t2 ht
      exact ⟨u2, by rw [appendRows_cons_ok u u1 r rs hu1]; exact hu2, hs2,
        b1.trans a1, m1.trans n1, b2.trans a2, m2.trans n2⟩

theorem SameBuffers_symm (t u : CustomTable) (h : SameBuffers t u) : SameBuffers u t := by
  obtain ⟨hA, hB, hI, hD, hR, hH⟩ := h
  exact ⟨hB, hA, hI.symm, hD.symm, hR.symm, fun hu => (hH (hI.trans hu)).symm⟩

theorem accumulated_same (t u : CustomTable) (h : SameBuffers t u) :
    accumulated t = accumulated u := by
  obtain ⟨_, _, hI, hD, hR, _⟩ := h
  simp [accumulated, hI, hD, hR]

/-- A reset of a renderer in JSON mode succeeds; what it leaves for the accumulation
depends on the header alone. -/
theorem NewCustomTable_json (T : CustomTable) (name : Str) (headers : Option Row)
    (hjson : T.AsJson = some true) :
    ∃ t, NewCustomTable (some T) name headers = .ok t ∧ t.AsJson = some true ∧
      t.isArray = headers.isSome ∧ t.Data = GoMap.empty ∧ t.ArrayData = [] ∧
      t.AllData = T.AllData ∧ t.Name = name ∧
      (∀ H, headers = some H → t.Headers = H.map toSnakeCase) := by
  cases headers with
  | none => exact ⟨_, rfl, hjson, rfl, rfl, rfl, rfl, rfl, fun H h => by cases h⟩
  | some H =>
    exact ⟨_, NewCustomTable_header T name H hjson, hjson, rfl, rfl, rfl, rfl, rfl,
      fun H2 h => by cases h; rfl⟩

theorem NewCustomTable_same (T U : CustomTable) (n1 n2 : Str) (headers : Option Row)
    (hT : T.AsJson = some true) (hU : U.AsJson = some true) :
    ∃ t u, NewCustomTable (some T) n1 headers = .ok t ∧
      NewCustomTable (some U) n2 headers = .ok u ∧ SameBuffers t u ∧
      t.AllData = T.AllData ∧ t.Name = n1 := by
  obtain ⟨t, h1, tA, tI, tD, tR, tAll, tN, tH⟩ := NewCustomTable_json T n1 headers hT
  obtain ⟨u, h2, uA, uI, uD, uR, _, _, uH⟩ := NewCustomTable_json U n2 headers hU
  refine ⟨t, u, h1, h2, ⟨tA, uA, tI.trans uI.symm, tD.trans uD.symm, tR.trans uR.symm, ?_⟩,
    tAll, tN⟩
  intro harr
  cases headers with
  | none => rw [tI] at harr; cases harr
  | some H => rw [tH H rfl, uH H rfl]

theorem Render_json_eq (renderText : Writer → Str) (jt : CustomTable)
    (hjson : jt.AsJson = some true) :
    Render renderText jt =
      .ok ([], { jt with AllData := jt.AllData.assign (toSnakeCase jt.Name) (accumulated jt) }) := by
  cases harr : jt.isArray <;> simp [Render, hjson, harr, accumulated]

/-- One table on a renderer in JSON mode: the run completes exactly when the table
alone completes, and then commits what the table alone accumulates. -/
theorem renderTable_alone (renderText : Writer → Str) (T : CustomTable) (name : Str)
    (headers : Option Row) (rows : List Row) (hjson : T.AsJson = some true) :
    (∀ v, tableAlone name headers rows = .ok v →
      ∃ t, renderTable renderText T name headers rows = .ok t ∧
        t.AllData = T.AllData.assign (toSnakeCase name) v ∧ t.AsJson = some true) ∧
    (∀ t, renderTable renderText T name headers rows = .ok t →
      ∃ v, tableAlone name headers rows = .ok v ∧
        t.AllData = T.AllData.assign (toSnakeCase name) v ∧ t.AsJson = some true) := by
  obtain ⟨t1, e1, h1, h2, hs, hAll, hN⟩ :=
    NewCustomTable_same T (emptyJsonTable []) name name headers hjson rfl
  constructor
  · intro v hv
    unfold tableAlone at hv
    rw [h2] at hv
    simp only at hv
    cases ha : appendRows e1 rows with
    | error e => rw [ha] at hv; cases hv
    | ok e2 =>
      rw [ha] at hv
      simp only [Except.ok.injEq] at hv
      obtain ⟨t2, ht2, hs2, _, _, b1, m1⟩ :=
        appendRows_same rows e1 t1 (SameBuffers_symm _ _ hs) e2 ha
      refine ⟨{ t2 with AllData := t2.AllData.assign (toSnakeCase t2.Name) (accumulated t2) },
        ?_, ?_, hs2.2.1⟩
      · unfold renderTable
        rw [h1]
        simp only
        rw [ht2]
        simp only
        rw [Render_json_eq renderText t2 hs2.2.1]
      · show t2.AllData.assign (toSnakeCase t2.Name) (accumulated t2) = _
        rw [b1, m1, hAll, hN, ← hv, accumulated_same e2 t2 hs2]
  · intro t ht
    unfold renderTable at ht
    rw [h1] at ht
    simp only at ht
    cases ha : appendRows t1 rows with
    | error e => rw [ha] at ht; cases ht
    | ok t2 =>
      rw [ha] at ht
      simp only at ht
      obtain ⟨e2, he2, hs2, b1, m1, _, _⟩ := appendRows_same rows t1 e1 hs t2 ha
      rw [Render_json_eq renderText t2 hs2.1] at ht
      simp only [Except.ok.injEq] at ht
      subst ht
      refine ⟨accumulated e2, ?_, ?_, hs2.1⟩
      · unfold tableAlone
        rw [h2]
        simp only
        rw [he2]
      · show t2.AllData.assign (toSnakeCase t2.Name) (accumulated t2) = _
        rw [b1, m1, hAll, hN, accumulated_same t2 e2 hs2]

/-- C17: in JSON mode, for two table names whose normalized keys differ, the sequence
reset, append rows `A`, `Render`, reset, append rows `B`, `Render` completes
whenever each table alone completes, and only then; it leaves `AllData` with the
value under `toSnakeCase(n1)` being exactly the structure accumulated from `A`
alone, the value under `toSnakeCase(n2)` exactly the structure accumulated from `B`
alone, and every other key as it was, whatever the modes of the two tables. -/
theorem two_tables_no_leak (renderText : Writer → Str) (T : CustomTable)
    (n1 n2 : Str) (h1 h2 : Option Row) (A B : List Row)
    (hjson : T.AsJson = some true) (hkeys : toSnakeCase n1 ≠ toSnakeCase n2) :
    (∀ vA vB, tableAlone n1 h1 A = .ok vA → tableAlone n2 h2 B = .ok vB →
      ∃ final, renderTwoTables renderText T n1 h1 A n2 h2 B = .ok final ∧
        final.AllData.lookup (toSnakeCase n1) = some vA ∧
        final.AllData.lookup (toSnakeCase n2) = some vB ∧
        ∀ k, k ≠ toSnakeCase n1 → k ≠ toSnakeCase n2 →
          final.AllData.lookup k = T.AllData.lookup k) ∧
    (∀ final, renderTwoTables renderText T n1 h1 A n2 h2 B = .ok final →
      ∃ vA vB, tableAlone n1 h1 A = .ok vA ∧ tableAlone n2 h2 B = .ok vB ∧
        final.AllData.lookup (toSnakeCase n1) = some vA ∧
        final.AllData.lookup (toSnakeCase n2) = some vB ∧
        ∀ k, k ≠ toSnakeCase n1 → k ≠ toSnakeCase n2 →
          final.AllData.lookup k = T.AllData.lookup k) := by
  have look : ∀ (t1 final : CustomTable) (vA vB : TableData),
      t1.AllData = T.AllData.assign (toSnakeCase n1) vA →
      final.AllData = t1.AllData.assign (toSnakeCase n2) vB →
      final.AllData.lookup (toSnakeCase n1) = some vA ∧
      final.AllData.lookup (toSnakeCase n2) = some vB ∧
      ∀ k, k ≠ toSnakeCase n1 → k ≠ toSnakeCase n2 →
        final.AllData.lookup k = T.AllData.lookup k := by
    intro t1 final vA vB e1 e2
    rw [e2, e1]
    refine ⟨?_, GoMap.lookup_assign_self _ _ _, fun k k1 k2 => ?_⟩
    · rw [GoMap.lookup_assign_ne _ _ _ _ hkeys, GoMap.lookup_assign_self]
    · rw [GoMap.lookup_assign_ne _ _ _ _ k2, GoMap.lookup_assign_ne _ _ _ _ k1]
  constructor
  · intro vA vB hA hB
    obtain ⟨t1, r1, a1, j1⟩ := (renderTable_alone renderText T n1 h1 A hjson).1 vA hA
    obtain ⟨t2, r2, a2, _⟩ := (renderTable_alone renderText t1 n2 h2 B j1).1 vB hB
    refine ⟨t2, ?_, look t1 t2 vA vB a1 a2⟩
    unfold renderTwoTables
    rw [r1]
    exact r2
  · intro final hrun
    unfold renderTwoTables at hrun
    cases r1 : renderTable renderText T n1 h1 A with
    | error e => rw [r1] at hrun; cases hrun
    | ok t1 =>
      rw [r1] at hrun
      obtain ⟨vA, hA, a1, j1⟩ := (renderTable_alone renderText T n1 h1 A hjson).2 t1 r1
      obtain ⟨vB, hB, a2, _⟩ := (renderTable_alone renderText t1 n2 h2 B j1).2 final hrun
      exact ⟨vA, vB, hA, hB, look t1 final vA vB a1 a2⟩

/-- Witness of C17: the hierarchical table `Token` with two rows, then the array table
`Nodes` with one row. -/
theorem two_tables_no_leak_witness :
    ∃ final, renderTwoTables (fun _ => []) (emptyJsonTable (ascii "T"))
        (ascii "Token") none [[ascii "Token Name", ascii "TEST"], [ascii "Token Symbol", ascii "TST"]]
        (ascii "Nodes") (some [ascii "Name", ascii "Node ID"])
          [[ascii "node1", ascii "NodeID-1"]] = .ok final ∧
      final.AllData.lookup (toSnakeCase (ascii "Token")) =
        some (TableData.hierarchy ⟨[(ascii "token_name", Entry.text (ascii "TEST")),
          (ascii "token_symbol", Entry.text (ascii "TST"))]⟩) ∧
      final.AllData.lookup (toSnakeCase (ascii "Nodes")) =
        some (TableData.array
          [⟨[(ascii "name", ascii "node1"), (ascii "node_id", ascii "NodeID-1")]⟩]) := by
  obtain ⟨final, h1, h2, h3, _⟩ :=
    (two_tables_no_leak (fun _ => []) (emptyJsonTable (ascii "T")) (ascii "Token")
      (ascii "Nodes") none (some [ascii "Name", ascii "Node ID"])
      [[ascii "Token Name", ascii "TEST"], [ascii "Token Symbol", ascii "TST"]]
      [[ascii "node1", ascii "NodeID-1"]] rfl (by decide)).1
      (TableData.hierarchy ⟨[(ascii "token_name", Entry.text (ascii "TEST")),
          (ascii "token_symbol", Entry.text (ascii "TST"))]⟩)
      (TableData.array
          [⟨[(ascii "name", ascii "node1"), (ascii "node_id", ascii "NodeID-1")]⟩])
      rfl rfl
  exact ⟨final, h1, h2, h3⟩

/-- C18: when no renderer instance exists yet, `NewCustomTable` and `DefaultTable`
called with a non-nil header fail: the instance they create has its JSON flag
unbound, and `AppendHeader` on an instance without recorded header fails on the
unbound flag; called with a nil header the first call succeeds and yields
an instance with empty `Data`, `ArrayData` and `AllData`, whose flag is unbound. -/
theorem first_use_with_header_fails (name : Str) (H : Row) :
    NewCustomTable none name (some H) = Except.error nilDereference ∧
    DefaultTable none name (some H) = Except.error nilDereference ∧
    AppendHeader
      { Writer := NewWriter, Name := name, Headers := [], Data := GoMap.empty,
        ArrayData := [], AllData := GoMap.empty, headerAdded := false, isArray := true,
        AsJson := none } H = Except.error nilDereference ∧
    (∃ t, NewCustomTable none name none = .ok t ∧ t.Data = GoMap.empty ∧
      t.ArrayData = [] ∧ t.AllData = GoMap.empty ∧ t.AsJson = none ∧ t.isArray = false) ∧
    (∃ t, DefaultTable none name none = .ok t ∧ t.Data = GoMap.empty ∧
      t.ArrayData = [] ∧ t.AllData = GoMap.empty ∧ t.AsJson = none ∧ t.isArray = false) :=
  ⟨rfl, rfl, rfl, ⟨_, rfl, rfl, rfl, rfl, rfl, rfl⟩, ⟨_, rfl, rfl, rfl, rfl, rfl, rfl⟩⟩

/-! ## The guard of `printAllocations` -/

theorem allocationsGuard_ne_true (tokenAllocations : Option (List TokenAlloc)) :
    allocationsGuard tokenAllocations ≠ Except.ok true := by
  cases tokenAllocations with
  | none => intro h; cases h
  | some l => intro h; cases h

theorem printAllocations_nil (orangeWrap : Str → Str) (token : Option Token) :
    printAllocations orangeWrap none token = Except.error nilDereference := rfl

/-- C19: the empty-input guard of `printAllocations` never returns early.  Given a nil
allocation list the function fails on the dereference of the nil pointer; given a
non-nil empty list it goes on and prints a table with the header row and no data
row.  The nil list is what `describe` passes in text mode for a blockchain whose
genesis is not a Subnet-EVM genesis: `GatherSubnetInfo` then leaves
`TokenAllocations` unset, and `PrintSubnetInfo`, which for a blockchain without
local networks does nothing before the call, fails in `printAllocations`. -/
theorem printAllocations_never_returns_early (orangeWrap : Str → Str)
    (tokenAllocations : Option (List TokenAlloc)) (token : Option Token) (tk : Token)
    (info : SubnetInfo) (tokenName tokenSymbol : Str)
    (Genesis : Type) (toGenesis : Except String Genesis)
    (gatherAllocations : Genesis → Except String (List TokenAlloc))
    (gatherSmartContracts : Genesis → List SmartContract)
    (gatherPrecompiles : Genesis → List Precompile)
    (localTables : SubnetInfo → List LocalNetwork → Except String (List Printed))
    (afterAllocations : SubnetInfo → Except String (List Printed))
    (notFound : Str) (printGenesis afterPrint : Except String (List Printed))
    (printJSON : SubnetInfo → Except String (List Printed)) :
    printAllocations orangeWrap tokenAllocations token ≠ Except.ok Printing.returnedEarly ∧
    printAllocations orangeWrap none token = Except.error nilDereference ∧
    printAllocations orangeWrap (some []) (some tk) =
      Except.ok (Printing.done [Printed.message [], Printed.table
        { header := [[ascii "Description", ascii "Address and Private Key",
                      ascii "Amount (" ++ tk.Symbol ++ ascii ")", ascii "Amount (wei)"]],
          rows := [], title := ascii "Initial Token Allocation",
          titleAlign := Align.Center, titleFormat := Format.Upper, separateRows := true }]) ∧
    gatherGenesisFields { info with TokenAllocations := none } tokenName tokenSymbol false
        toGenesis gatherAllocations gatherSmartContracts gatherPrecompiles =
      Except.ok { info with TokenAllocations := none, Token := some ⟨tokenName, tokenSymbol⟩ } ∧
    PrintSubnetInfo orangeWrap localTables afterAllocations
        { info with TokenAllocations := none, LocalNetworks := none } =
      Except.error nilDereference ∧
    describe true notFound false false printGenesis
        (Except.ok { info with TokenAllocations := none, LocalNetworks := none })
        (PrintSubnetInfo orangeWrap localTables afterAllocations) afterPrint printJSON =
      Except.error nilDereference := by
  refine ⟨?_, rfl, rfl, rfl, rfl, rfl⟩
  intro h
  unfold printAllocations at h
  cases hg : allocationsGuard tokenAllocations with
  | error e => rw [hg] at h; cases h
  | ok b =>
    cases b with
    | true => exact allocationsGuard_ne_true tokenAllocations hg
    | false =>
      rw [hg] at h
      simp only at h
      cases token with
      | none => cases h
      | some tk2 =>
        cases tokenAllocations with
        | none => cases h
        | some l => cases h

end Ux
